import Mathlib

/-!
Verification development for the tomox-sdk trading core.

Part I embeds the configuration code (`config` package: `Config.SignerPrivateKey`,
`Config.SignerPublicKey`) shallowly: Go pointers become `Option`, a nil-pointer
dereference becomes `Except.error`, and the external go-ethereum crypto functions
(`crypto.ToECDSA ∘ common.FromHex`, `crypto.PubkeyToAddress`) are abstracted as
function parameters, since they live outside this repository.

Part II models the trading core (matching engine, order/trade lifecycle manager,
settlement operator, balance validator) from the specification: the repository
snapshot contains only the interface declarations (`interfaces` package) and the
wiring in `server.go`, not the implementations, so the operational definitions are
modelled from the spec text and the claims are settled against those models.
-/

namespace TomoxSdk

/-! ## Part I: the `config` package (from source) -/

/-- Keys and addresses are abstracted to `Nat`: the concrete ECDSA arithmetic lives
in the external go-ethereum library, not in this repository. -/
abbrev PrivKey := Nat

abbrev Address := Nat

/-- `ethereum.EmptyAddress`: the zero address. -/
def EmptyAddress : Address := 0

/-- `EthereumConfig` struct of the `config` package (public fields). -/
structure EthereumConfig where
  NetworkID : String
  MasterPublicKey : String
  MinimumValueEth : String
  TokenPrice : String
  RpcServer : String
  ConfirmedBlockNumber : Nat
deriving DecidableEq, Repr

/-- `TomochainConfig` struct of the `config` package. `SignerPrivateKey` is the
configured hex string; the unexported `signerPrivateKey` field caches the parsed
ECDSA key (Go nil pointer = `none`). -/
structure TomochainConfig where
  TokenAssetCode : String
  IssuerPublicKey : String
  DistributionPublicKey : String
  SignerPrivateKey : String
  StartingBalance : String
  LockUnixTimestamp : Nat
  signerPrivateKey : Option PrivKey
deriving DecidableEq, Repr

/-- `Config` struct: both fields are pointers in Go, hence `Option` here. -/
structure Config where
  Ethereum : Option EthereumConfig
  Tomochain : Option TomochainConfig
deriving DecidableEq, Repr

/-- `func (c *Config) SignerPrivateKey() *ecdsa.PrivateKey`.  The method reads
`c.Tomochain.signerPrivateKey` unconditionally, so a nil `Tomochain` pointer is a
nil-pointer dereference, modelled as `Except.error ()`.  When the cache is nil it
parses the hex string (`toECDSA` models `crypto.ToECDSA (common.FromHex s)`,
returning `none` on a parse error, whose Go error value is discarded), stores the
result — possibly still nil — in the cache, and returns the cache.  Mutation of
the struct through the pointer is modelled by returning the updated `Config`. -/
def Config.signerPrivateKeyGo (toECDSA : String → Option PrivKey) (c : Config) :
    Except Unit (Config × Option PrivKey) :=
  match c.Tomochain with
  | none => .error ()
  | some t =>
    match t.signerPrivateKey with
    | none =>
      let k := toECDSA t.SignerPrivateKey
      .ok ({ c with Tomochain := some { t with signerPrivateKey := k } }, k)
    | some k => .ok (c, some k)

/-- `func (c *Config) SignerPublicKey() common.Address`.  Returns
`ethereum.EmptyAddress` when `c.Tomochain` is nil, otherwise calls
`SignerPrivateKey`; a nil key again yields `EmptyAddress`, otherwise
`crypto.PubkeyToAddress` (abstracted as `pubkeyToAddress`) of the key. -/
def Config.signerPublicKeyGo (toECDSA : String → Option PrivKey)
    (pubkeyToAddress : PrivKey → Address) (c : Config) :
    Except Unit (Config × Address) :=
  match c.Tomochain with
  | none => .ok (c, EmptyAddress)
  | some _ =>
    match c.signerPrivateKeyGo toECDSA with
    | .error e => .error e
    | .ok (c', none) => .ok (c', EmptyAddress)
    | .ok (c', some k) => .ok (c', pubkeyToAddress k)

/-- Overwriting the `SignerPrivateKey` hex string field of `c.Tomochain` (a plain
Go struct-field assignment): the unexported cache field is untouched. -/
def Config.setSignerHex (c : Config) (s : String) : Config :=
  { c with Tomochain := c.Tomochain.map (fun t => { t with SignerPrivateKey := s }) }

/-! ## Part II: the trading core, modelled from the spec -/

/-- Modelled from the spec: order sides (§3, buy/sell). -/
inductive Side
  | buy
  | sell
deriving DecidableEq, Repr

/-- Modelled from the spec: order types (§3: limit; market behaviour §4.2). -/
inductive OrderType
  | limit
  | market
deriving DecidableEq, Repr

/-- Modelled from the spec: order statuses (§4.4 state machine). -/
inductive OrderStatus
  | OPEN
  | PARTIAL_FILLED
  | FILLED
  | CANCELLED
  | REJECTED
deriving DecidableEq, Repr

/-- Modelled from the spec: terminal order states (§4.4: FILLED, CANCELLED,
REJECTED are terminal). -/
def OrderStatus.isTerminal : OrderStatus → Bool
  | .FILLED => true
  | .CANCELLED => true
  | .REJECTED => true
  | _ => false

/-- Modelled from the spec: trade statuses (§4.4: PENDING → SUCCESS | FAILED). -/
inductive TradeStatus
  | PENDING
  | SUCCESS
  | FAILED
deriving DecidableEq, Repr

/-- Modelled from the spec (§3, Order): identity hash, side, type, price,
original and remaining quantity, status.  Hashes are abstracted to `Nat`;
quantities and prices are `Int` so that non-negativity of `remaining` is a real
statement, as in the source's `*big.Int` amounts. -/
structure Order where
  hash : Nat
  side : Side
  typ : OrderType
  price : Int
  original : Int
  remaining : Int
  status : OrderStatus
  owner : Nat
  nonce : Nat
deriving DecidableEq, Repr

/-- Modelled from the spec (§3, Trade): maker/taker order references by hash,
matched price and amount. -/
structure Trade where
  maker : Nat
  taker : Nat
  price : Int
  amount : Int
deriving DecidableEq, Repr

/-- Modelled from the spec (§3, OrderBook): bids kept in descending price order,
asks in ascending price order, FIFO inside each price level — both represented
as priority-ordered lists of resting orders. -/
structure Book where
  bids : List Order
  asks : List Order
deriving DecidableEq, Repr

def Book.empty : Book := ⟨[], []⟩

def Book.allOrders (b : Book) : List Order := b.bids ++ b.asks

/-- Modelled from the spec (§4.2): an incoming order crosses a resting order when
buy price ≥ resting ask price, or sell price ≤ resting bid price; a market order
takes any available liquidity. -/
def crosses (o r : Order) : Bool :=
  match o.typ with
  | .market => true
  | .limit =>
    match o.side with
    | .buy => decide (r.price ≤ o.price)
    | .sell => decide (o.price ≤ r.price)

/-- Modelled from the spec (§4.2): the core matching loop over the opposing side
list (already in price-time priority order).  Each match consumes
`min remaining_incoming remaining_resting` at the resting order's price; a fully
consumed resting order is removed and marked FILLED, otherwise it stays resting
as PARTIAL_FILLED and the incoming order is exhausted.  Returns the incoming
order's residual state, the surviving opposing list, the trades in match order,
and the final state of every resting order touched. -/
def matchLoop (o : Order) : List Order → Order × List Order × List Trade × List Order
  | [] => (o, [], [], [])
  | r :: rs =>
    if crosses o r && decide (0 < o.remaining) then
      let amt := min o.remaining r.remaining
      let t : Trade := ⟨r.hash, o.hash, r.price, amt⟩
      let o' := { o with remaining := o.remaining - amt }
      if r.remaining - amt ≤ 0 then
        let rFilled := { r with remaining := r.remaining - amt, status := OrderStatus.FILLED }
        let res := matchLoop o' rs
        (res.1, res.2.1, t :: res.2.2.1, rFilled :: res.2.2.2)
      else
        let r' := { r with remaining := r.remaining - amt, status := OrderStatus.PARTIAL_FILLED }
        (o', r' :: rs, [t], [r'])
    else (o, r :: rs, [], [])

/-- Modelled from the spec (§4.1): insertion keeps price priority and, within a
price level, strict FIFO — the new order goes behind every resting order of
better or equal priority. -/
def priorGE (s : Side) (restPrice newPrice : Int) : Bool :=
  match s with
  | .buy => decide (newPrice ≤ restPrice)
  | .sell => decide (restPrice ≤ newPrice)

def insertOrder (o : Order) : List Order → List Order
  | [] => [o]
  | r :: rs => if priorGE o.side r.price o.price then r :: insertOrder o rs else o :: r :: rs

/-- Modelled from the spec (§3): EngineResponse — the incoming order's final
state, the ordered trades produced, and the final state of the resting orders
affected. -/
structure EngineResponse where
  taker : Order
  trades : List Trade
  makers : List Order
deriving DecidableEq, Repr

def oppositeOf (b : Book) (s : Side) : List Order :=
  match s with
  | .buy => b.asks
  | .sell => b.bids

def Book.withOpposite (b : Book) (s : Side) (l : List Order) : Book :=
  match s with
  | .buy => { b with asks := l }
  | .sell => { b with bids := l }

def Book.restOrder (b : Book) (o : Order) : Book :=
  match o.side with
  | .buy => { b with bids := insertOrder o b.bids }
  | .sell => { b with asks := insertOrder o b.asks }

/-- Modelled from the spec (§4.2): `process(incomingOrder) → EngineResponse`.
Match against the opposing side; an exhausted incoming order is FILLED; an
unexhausted market remainder is CANCELLED and never rests; an unexhausted limit
remainder rests in the book as OPEN (no fill yet) or PARTIAL_FILLED. -/
def process (o : Order) (b : Book) : EngineResponse × Book :=
  let res := matchLoop o (oppositeOf b o.side)
  let o1 := res.1
  let ts := res.2.2.1
  let ms := res.2.2.2
  let b1 := b.withOpposite o.side res.2.1
  if o1.remaining ≤ 0 then
    ({ taker := { o1 with status := OrderStatus.FILLED }, trades := ts, makers := ms }, b1)
  else
    match o.typ with
    | .market =>
      ({ taker := { o1 with status := OrderStatus.CANCELLED }, trades := ts, makers := ms }, b1)
    | .limit =>
      let st := if ts.isEmpty then OrderStatus.OPEN else OrderStatus.PARTIAL_FILLED
      let taker := { o1 with status := st }
      ({ taker := taker, trades := ts, makers := ms }, b1.restOrder taker)

/-- Modelled from the spec (§4.2, §5): per-pair serialized processing of a
sequence of admitted orders, recording for each step the book it saw and the
EngineResponse it produced. -/
def runEngine : List Order → Book → List (Book × EngineResponse) × Book
  | [], b => ([], b)
  | o :: os, b =>
    let pr := process o b
    let rest := runEngine os pr.2
    ((b, pr.1) :: rest.1, rest.2)

/-- Modelled from the spec (§6): downstream messages emitted by the core —
rejection notices, EngineResponse messages on `orders.matched`, settlement
transaction submissions, and compensating balance-unlock messages. -/
inductive OutMsg
  | rejectNotice (orderHash : Nat)
  | engineResponseMsg (resp : EngineResponse)
  | submitTx (nonce : Nat) (batch : List Nat)
  | unlockBalances (batch : List Nat)
deriving DecidableEq, Repr

/-- Modelled from the spec (§6): an order-intake message — the order fields plus
the outcome of the signature check (`sigValid`). -/
structure OrderMsg where
  order : Order
  sigValid : Bool
deriving DecidableEq, Repr

/-- Modelled from the spec (§5, §4.3): the per-pair engine state — the book, the
per-owner available balance, the per-order-hash locked amount, and the per-owner
highest accepted nonce (replay guard). -/
structure EngineState where
  book : Book
  available : Nat → Int
  lockedOf : Nat → Int
  lastNonce : Nat → Option Nat

/-- Modelled from the spec (§4.3): the balance an order must lock — quote amount
(price × quantity) for a buy, base amount for a sell. -/
def requiredBalance (o : Order) : Int :=
  match o.side with
  | .buy => o.price * o.remaining
  | .sell => o.remaining

/-- Modelled from the spec (§6, §7): shape/signature well-formedness of an
intake message. -/
def wellFormedMsg (m : OrderMsg) : Bool :=
  m.sigValid && decide (0 < m.order.original) && decide (m.order.remaining = m.order.original)

/-- Modelled from the spec (§3, §6): an order nonce is fresh when it strictly
exceeds the owner's highest accepted nonce. -/
def nonceFresh (s : EngineState) (o : Order) : Bool :=
  match s.lastNonce o.owner with
  | none => true
  | some n => decide (n < o.nonce)

/-- Modelled from the spec (§7): the validation taxonomy — malformed order,
insufficient available balance to lock, stale/replayed nonce. -/
def validateOrderMsg (s : EngineState) (m : OrderMsg) : Bool :=
  wellFormedMsg m
    && decide (requiredBalance m.order ≤ s.available m.order.owner)
    && nonceFresh s m.order

/-- Modelled from the spec (§4.3, §6, §7): order intake.  A message failing
validation is rejected immediately: the order is set to the terminal REJECTED
status, no balance is locked, the book is not mutated, and the only downstream
message is the rejection notice.  A valid message locks the required balance,
records the nonce, runs `process`, and emits the EngineResponse. -/
def handleOrderMsg (s : EngineState) (m : OrderMsg) : EngineState × Order × List OutMsg :=
  if validateOrderMsg s m then
    let o := m.order
    let req := requiredBalance o
    let s1 : EngineState :=
      { s with
        available := fun a => if a = o.owner then s.available a - req else s.available a
        lockedOf := fun x => if x = o.hash then req else s.lockedOf x
        lastNonce := fun a => if a = o.owner then some o.nonce else s.lastNonce a }
    let (resp, b') := process o s1.book
    ({ s1 with book := b' }, resp.taker, [OutMsg.engineResponseMsg resp])
  else
    (s, { m.order with status := OrderStatus.REJECTED }, [OutMsg.rejectNotice m.order.hash])

/-- Modelled from the spec (§4.2, §7): the outcome of a cancel request; a cancel
against a non-resting order is a reported condition, not a failure. -/
inductive CancelResult
  | cancelled (o : Order)
  | notCancellable
deriving DecidableEq, Repr

def findByHash (h : Nat) (l : List Order) : Option Order :=
  l.find? (fun r => r.hash == h)

def Book.removeByHash (b : Book) (h : Nat) : Book :=
  ⟨b.bids.filter (fun r => r.hash != h), b.asks.filter (fun r => r.hash != h)⟩

/-- Modelled from the spec (§4.2, §7): cancellation removes a resting order from
the book, releases its balance lock, and marks it CANCELLED; a cancel against an
order not resting in the book (already filled, already cancelled, or unknown)
changes no state and reports `notCancellable`. -/
def cancelOrder (s : EngineState) (h : Nat) : EngineState × CancelResult :=
  match findByHash h s.book.allOrders with
  | none => (s, CancelResult.notCancellable)
  | some r =>
    let s' : EngineState :=
      { s with
        book := s.book.removeByHash h
        available := fun a => if a = r.owner then s.available a + s.lockedOf h else s.available a
        lockedOf := fun x => if x = h then 0 else s.lockedOf x }
    (s', CancelResult.cancelled { r with status := OrderStatus.CANCELLED })

/-! ### Order/Trade Lifecycle Manager (spec §4.4) -/

/-- Modelled from the spec (§4.4, §3): an order's persisted lifecycle record —
remaining and original quantity, status, and the sequence number of the last
applied fill. -/
structure LifeOrder where
  remaining : Int
  original : Int
  status : OrderStatus
  fillSeq : Nat
deriving DecidableEq, Repr

/-- Modelled from the spec (§4.4, §6): one per-order update of an
EngineResponse — the order's reported remaining/original quantities and status,
keyed for idempotent application by order hash plus a monotonically increasing
fill-sequence number. -/
structure FillUpdate where
  hash : Nat
  seq : Nat
  remaining : Int
  original : Int
  status : OrderStatus
deriving DecidableEq, Repr

/-- Modelled from the spec (§4.4, §6): the EngineResponse as consumed by the
Lifecycle Manager — per-order fill updates plus the hashes of the trades to
create (trade hash is the idempotency key for creation). -/
structure LifecycleResponse where
  updates : List FillUpdate
  tradeHashes : List Nat
deriving DecidableEq, Repr

/-- Modelled from the spec (§4.4): the Lifecycle Manager's persisted state. -/
structure LifecycleState where
  orders : Nat → Option LifeOrder
  trades : Nat → Option TradeStatus

theorem LifecycleState.ext2 {s t : LifecycleState}
    (ho : s.orders = t.orders) (ht : s.trades = t.trades) : s = t := by
  cases s; cases t; simp_all

/-- Modelled from the spec (§4.4): apply one fill update by order hash,
discarding it when its fill-sequence does not exceed the already-applied one. -/
def applyFillUpdate (s : LifecycleState) (u : FillUpdate) : LifecycleState :=
  match s.orders u.hash with
  | some r =>
    if u.seq ≤ r.fillSeq then s
    else { s with orders := fun h =>
      if h = u.hash then some ⟨u.remaining, u.original, u.status, u.seq⟩ else s.orders h }
  | none =>
    { s with orders := fun h =>
      if h = u.hash then some ⟨u.remaining, u.original, u.status, u.seq⟩ else s.orders h }

/-- Modelled from the spec (§4.4, §6): create a trade record as PENDING unless a
record with that hash already exists (trade hash is the idempotency key). -/
def applyTradeCreate (s : LifecycleState) (h : Nat) : LifecycleState :=
  match s.trades h with
  | some _ => s
  | none => { s with trades := fun x => if x = h then some TradeStatus.PENDING else s.trades x }

/-- Modelled from the spec (§4.4): `HandleEngineResponse` — apply every fill
update, then create every trade record. -/
def applyEngineResponse (r : LifecycleResponse) (s : LifecycleState) : LifecycleState :=
  r.tradeHashes.foldl applyTradeCreate (r.updates.foldl applyFillUpdate s)

/-! ### Settlement Operator (spec §4.5) -/

/-- Modelled from the spec (§4.5): the Settlement Operator's nonce-tracking
state for one signing account — the next nonce to assign, the in-flight nonces
in submission order, every nonce ever submitted in submission order, and the
resolved nonces in on-chain resolution order, tagged confirmed (`true`) or
definitively failed (`false`). -/
structure OperatorState where
  nextNonce : Nat
  pending : List Nat
  submitted : List Nat
  resolved : List (Nat × Bool)
deriving DecidableEq, Repr

/-- Modelled from the spec (§4.5, §6): events of the settlement pipeline — the
operator submits the next batch, or the chain resolves the lowest in-flight
nonce (the chain enforces strict per-account nonce sequencing, so the oldest
in-flight transaction is always the one resolved next). -/
inductive ChainEvent
  | submitBatch
  | confirmNext
  | failNext
deriving DecidableEq, Repr

/-- Modelled from the spec (§4.5): one step of the nonce discipline.  A
submission consumes the next nonce; a confirmation or definitive failure
resolves the oldest in-flight nonce. -/
def operatorStep (s : OperatorState) : ChainEvent → OperatorState
  | .submitBatch =>
    { s with
      nextNonce := s.nextNonce + 1
      pending := s.pending ++ [s.nextNonce]
      submitted := s.submitted ++ [s.nextNonce] }
  | .confirmNext =>
    match s.pending with
    | [] => s
    | n :: rest => { s with pending := rest, resolved := s.resolved ++ [(n, true)] }
  | .failNext =>
    match s.pending with
    | [] => s
    | n :: rest => { s with pending := rest, resolved := s.resolved ++ [(n, false)] }

def runOperator (n0 : Nat) (es : List ChainEvent) : OperatorState :=
  es.foldl operatorStep ⟨n0, [], [], []⟩

/-- Modelled from the spec (§4.5): the nonces observed confirmed on chain, in
observation order. -/
def confirmedNonces (s : OperatorState) : List Nat :=
  (s.resolved.filter (fun p => p.2)).map (fun p => p.1)

/-- Modelled from the spec (§4.5): the Settlement Operator's per-batch
submission state — nonce tracking plus the persisted trade statuses. -/
structure SettleState where
  nextNonce : Nat
  pending : List Nat
  tradeStatus : Nat → Option TradeStatus

/-- Modelled from the spec (§4.5, §7): submit one settlement batch.  When gas
estimation fails the batch's trades are all marked FAILED, a compensating
balance-unlock message is emitted, and no nonce is consumed; on success the
next nonce is consumed and the transaction is submitted, trades staying
PENDING until the receipt arrives. -/
def submitSettlementBatch (estimateGas : List Nat → Option Nat) (s : SettleState)
    (batch : List Nat) : SettleState × List OutMsg :=
  match estimateGas batch with
  | none =>
    ({ s with tradeStatus := fun h => if h ∈ batch then some TradeStatus.FAILED else s.tradeStatus h },
     [OutMsg.unlockBalances batch])
  | some _ =>
    ({ s with
        nextNonce := s.nextNonce + 1
        pending := s.pending ++ [s.nextNonce]
        tradeStatus := fun h => if h ∈ batch then some TradeStatus.PENDING else s.tradeStatus h },
     [OutMsg.submitTx s.nextNonce batch])

/-! ### The engine-fed lifecycle pipeline (spec §2, §4.4, §6) -/

/-- Modelled from the spec (§4.4, §6): the fill update the Lifecycle Manager
derives from one order reported in an EngineResponse, keyed by the order's hash
and the response's fill-sequence number. -/
def Order.toFillUpdate (seq : Nat) (o : Order) : FillUpdate :=
  ⟨o.hash, seq, o.remaining, o.original, o.status⟩

/-- Modelled from the spec (§3, §4.4): the lifecycle view of an EngineResponse —
one fill update per reported order (the taker and every affected maker), all
carrying that response's fill-sequence number, plus the hashes of the trades to
create. -/
def EngineResponse.toLifecycleResponse (seq : Nat) (tradeHashes : List Nat)
    (resp : EngineResponse) : LifecycleResponse :=
  ⟨(resp.taker :: resp.makers).map (Order.toFillUpdate seq), tradeHashes⟩

/-- The Lifecycle Manager's initial state: no order or trade records. -/
def LifecycleState.empty : LifecycleState := ⟨fun _ => none, fun _ => none⟩

/-- Modelled from the spec (§2 data flow): one step of the pipeline — the
engine processes the incoming order and the Lifecycle Manager applies the
resulting EngineResponse at the current fill-sequence number. -/
def lifecycleStep (o : Order) (b : Book) (seq : Nat) (ths : List Nat)
    (L : LifecycleState) : LifecycleState :=
  applyEngineResponse ((process o b).1.toLifecycleResponse seq ths) L

/-- Modelled from the spec (§2, §5): the sequence of Lifecycle Manager states
seen while the engine processes a list of admitted orders in series (`th`
supplies each step's trade hashes, which never touch order records). -/
def pipelineStates (th : Nat → List Nat) :
    List Order → Book → Nat → LifecycleState → List LifecycleState
  | [], _, _, L => [L]
  | o :: os, b, seq, L =>
    L :: pipelineStates th os (process o b).2 (seq + 1) (lifecycleStep o b seq (th seq) L)

/-- One lifecycle application never increases any stored remaining quantity:
the relation between consecutive Lifecycle Manager states. -/
def NoIncrease (L L' : LifecycleState) : Prop :=
  ∀ h rec rec', L.orders h = some rec → L'.orders h = some rec' →
    rec'.remaining ≤ rec.remaining

/-- The same-side list of the book relative to an incoming order's side. -/
def sameOf (b : Book) (s : Side) : List Order :=
  match s with
  | .buy => b.bids
  | .sell => b.asks

/-! ### Concrete fixtures used by witnesses -/

def toEcdsaNone : String → Option PrivKey := fun _ => none

def toEcdsaSeven : String → Option PrivKey := fun _ => some 7

def addrOfKey : PrivKey → Address := fun k => k + 1

def cfgNil : Config := ⟨none, none⟩

def tomoW : TomochainConfig := ⟨"TOK", "issuer", "dist", "0xab", "41", 0, none⟩

def cfgW : Config := ⟨none, some tomoW⟩

def cfgW7 : Config := ⟨none, some { tomoW with signerPrivateKey := some 7 }⟩

def emptyEngineState : EngineState := ⟨Book.empty, fun _ => 0, fun _ => 0, fun _ => none⟩

def badMsg : OrderMsg := ⟨⟨1, Side.buy, OrderType.limit, 100, 10, 10, OrderStatus.OPEN, 11, 1⟩, false⟩

def gasFailAll : List Nat → Option Nat := fun _ => none

def settleW : SettleState := ⟨5, [17], fun _ => none⟩

def batchW : List Nat := [101, 102]

def buy1W : Order := ⟨1, Side.buy, OrderType.limit, 100, 10, 10, OrderStatus.OPEN, 11, 1⟩

def sell1W : Order := ⟨2, Side.sell, OrderType.limit, 100, 4, 4, OrderStatus.OPEN, 22, 1⟩

def osW : List Order := [buy1W, sell1W]

def pre1W : Book := ⟨[buy1W], []⟩

def resp1W : EngineResponse :=
  ⟨{ sell1W with remaining := 0, status := OrderStatus.FILLED },
   [⟨1, 2, 100, 4⟩],
   [{ buy1W with remaining := 6, status := OrderStatus.PARTIAL_FILLED }]⟩

def mk1W : Order := ⟨4, Side.sell, OrderType.limit, 100, 5, 5, OrderStatus.OPEN, 44, 1⟩

def mk2W : Order := ⟨5, Side.sell, OrderType.limit, 100, 5, 5, OrderStatus.OPEN, 55, 1⟩

def bookW : Book := ⟨[], [mk1W, mk2W]⟩

def buyBigW : Order := ⟨6, Side.buy, OrderType.limit, 100, 10, 10, OrderStatus.OPEN, 66, 2⟩

def thW : Nat → List Nat := fun _ => []

/-! ## Theorems -/

/-- C9: for every `Config`, `SignerPublicKey` returns without panicking; it
returns `EmptyAddress` both when `Tomochain` is nil and when the configured hex
string fails to parse (cache empty, parse error silently discarded); by
contrast `SignerPrivateKey` called directly on a nil-`Tomochain` config
dereferences a nil pointer (`Except.error`), and a non-nil `Tomochain` is
exactly its safety precondition. -/
theorem signerPublicKey_safety (toECDSA : String → Option PrivKey)
    (pubkeyToAddress : PrivKey → Address) (c : Config) :
    (∃ p, c.signerPublicKeyGo toECDSA pubkeyToAddress = .ok p) ∧
    (c.Tomochain = none →
      c.signerPublicKeyGo toECDSA pubkeyToAddress = .ok (c, EmptyAddress) ∧
      c.signerPrivateKeyGo toECDSA = .error ()) ∧
    (∀ t, c.Tomochain = some t → t.signerPrivateKey = none →
      toECDSA t.SignerPrivateKey = none →
      ∃ c', c.signerPublicKeyGo toECDSA pubkeyToAddress = .ok (c', EmptyAddress)) ∧
    (∀ t, c.Tomochain = some t → ∃ p, c.signerPrivateKeyGo toECDSA = .ok p) := by
  obtain ⟨eth, tom⟩ := c
  cases tom with
  | none =>
    refine ⟨⟨(⟨eth, none⟩, EmptyAddress), rfl⟩, fun _ => ⟨rfl, rfl⟩, ?_, ?_⟩ <;>
      intro t ht <;> simp_all
  | some t =>
    cases hc : t.signerPrivateKey with
    | some k =>
      refine ⟨⟨(⟨eth, some t⟩, pubkeyToAddress k), ?_⟩, by simp, ?_, ?_⟩
      · simp [Config.signerPublicKeyGo, Config.signerPrivateKeyGo, hc]
      · intro t' ht' hc'
        simp only [Option.some.injEq] at ht'
        subst ht'
        rw [hc] at hc'
        exact absurd hc' (by simp)
      · intro t' ht'
        exact ⟨(⟨eth, some t⟩, some k), by simp [Config.signerPrivateKeyGo, hc]⟩
    | none =>
      cases hp : toECDSA t.SignerPrivateKey with
      | none =>
        refine ⟨⟨({ Ethereum := eth, Tomochain := some { t with signerPrivateKey := none } }, EmptyAddress), ?_⟩,
            by simp, ?_, ?_⟩
        · simp [Config.signerPublicKeyGo, Config.signerPrivateKeyGo, hc, hp]
        · intro t' ht' hc' hp'
          refine ⟨{ Ethereum := eth, Tomochain := some { t with signerPrivateKey := none } }, ?_⟩
          simp [Config.signerPublicKeyGo, Config.signerPrivateKeyGo, hc, hp]
        · intro t' ht'
          exact ⟨({ Ethereum := eth, Tomochain := some { t with signerPrivateKey := none } }, none),
            by simp [Config.signerPrivateKeyGo, hc, hp]⟩
      | some k =>
        refine ⟨⟨({ Ethereum := eth, Tomochain := some { t with signerPrivateKey := some k } }, pubkeyToAddress k), ?_⟩,
            by simp, ?_, ?_⟩
        · simp [Config.signerPublicKeyGo, Config.signerPrivateKeyGo, hc, hp]
        · intro t' ht' hc' hp'
          simp only [Option.some.injEq] at ht'
          subst ht'
          rw [hp] at hp'
          exact absurd hp' (by simp)
        · intro t' ht'
          exact ⟨({ Ethereum := eth, Tomochain := some { t with signerPrivateKey := some k } }, some k),
            by simp [Config.signerPrivateKeyGo, hc, hp]⟩

/-- C9 witness: the nil-`Tomochain` config and a config whose hex never parses,
evaluated concretely. -/
theorem signerPublicKey_safety_witness :
    (cfgNil.signerPublicKeyGo toEcdsaNone addrOfKey = .ok (cfgNil, EmptyAddress) ∧
      cfgNil.signerPrivateKeyGo toEcdsaNone = .error ()) ∧
    (∃ c', cfgW.signerPublicKeyGo toEcdsaNone addrOfKey = .ok (c', EmptyAddress)) :=
  ⟨(signerPublicKey_safety toEcdsaNone addrOfKey cfgNil).2.1 rfl,
   (signerPublicKey_safety toEcdsaNone addrOfKey cfgW).2.2.1 tomoW rfl rfl rfl⟩

/-- C10: once `SignerPrivateKey` has returned a non-nil key, the key is cached;
every later call returns the same key without re-parsing — even after the
`Tomochain.SignerPrivateKey` hex field is overwritten and with any other parse
function. -/
theorem signerPrivateKey_memoizes (toECDSA : String → Option PrivKey)
    (c c' : Config) (k : PrivKey)
    (h : c.signerPrivateKeyGo toECDSA = .ok (c', some k)) :
    (∃ t', c'.Tomochain = some t' ∧ t'.signerPrivateKey = some k) ∧
    ∀ (s : String) (toE2 : String → Option PrivKey),
      (c'.setSignerHex s).signerPrivateKeyGo toE2 = .ok (c'.setSignerHex s, some k) := by
  obtain ⟨eth, tom⟩ := c
  cases tom with
  | none => exact absurd h (by simp [Config.signerPrivateKeyGo])
  | some t =>
    cases hc : t.signerPrivateKey with
    | some k0 =>
      simp only [Config.signerPrivateKeyGo, hc, Except.ok.injEq, Prod.mk.injEq,
        Option.some.injEq] at h
      obtain ⟨hc', hk⟩ := h
      subst hk
      refine ⟨⟨t, by rw [← hc']; exact ⟨rfl, hc⟩⟩, ?_⟩
      intro s toE2
      rw [← hc']
      simp [Config.setSignerHex, Config.signerPrivateKeyGo, hc]
    | none =>
      simp only [Config.signerPrivateKeyGo, hc, Except.ok.injEq, Prod.mk.injEq] at h
      obtain ⟨hc', hk⟩ := h
      refine ⟨⟨{ t with signerPrivateKey := toECDSA t.SignerPrivateKey }, by rw [← hc']; exact ⟨rfl, hk⟩⟩, ?_⟩
      intro s toE2
      rw [← hc']
      simp [Config.setSignerHex, Config.signerPrivateKeyGo, hk]

/-- C10 witness: after a first successful parse (to key 7), the hex field is
overwritten and the parse function replaced by one that always fails, yet the
cached key 7 is still returned. -/
theorem signerPrivateKey_memoizes_witness :
    (cfgW7.setSignerHex "ff").signerPrivateKeyGo toEcdsaNone
      = .ok (cfgW7.setSignerHex "ff", some 7) :=
  (signerPrivateKey_memoizes toEcdsaSeven cfgW cfgW7 7 rfl).2 "ff" toEcdsaNone

/-- C6: a message failing validation (malformed, insufficient balance to lock,
or stale/replayed nonce) is rejected without mutating any engine state: the
order's status becomes REJECTED — a terminal state — the book is unchanged, and
the only message emitted is the rejection notice. -/
theorem reject_leaves_state_unchanged (s : EngineState) (m : OrderMsg)
    (h : validateOrderMsg s m = false) :
    handleOrderMsg s m
        = (s, { m.order with status := OrderStatus.REJECTED }, [OutMsg.rejectNotice m.order.hash]) ∧
    (handleOrderMsg s m).1.book = s.book ∧
    (handleOrderMsg s m).2.1.status = OrderStatus.REJECTED ∧
    OrderStatus.isTerminal (handleOrderMsg s m).2.1.status = true := by
  simp [handleOrderMsg, h, OrderStatus.isTerminal]

/-- C6 witness: a message with an invalid signature against the empty engine
state. -/
theorem reject_leaves_state_unchanged_witness :
    handleOrderMsg emptyEngineState badMsg
        = (emptyEngineState, { badMsg.order with status := OrderStatus.REJECTED },
           [OutMsg.rejectNotice badMsg.order.hash]) ∧
    OrderStatus.isTerminal (handleOrderMsg emptyEngineState badMsg).2.1.status = true :=
  ⟨(reject_leaves_state_unchanged emptyEngineState badMsg rfl).1,
   (reject_leaves_state_unchanged emptyEngineState badMsg rfl).2.2.2⟩

/-- C7: a cancel request against an order that is not resting in the book
(already FILLED, already CANCELLED, or unknown) changes no state and is
reported as `notCancellable`, never propagated as a failure. -/
theorem cancel_nonresting_noop (s : EngineState) (h : Nat)
    (hf : findByHash h s.book.allOrders = none) :
    cancelOrder s h = (s, CancelResult.notCancellable) := by
  simp [cancelOrder, hf]

/-- C7 witness: cancelling an unknown order hash against the empty book. -/
theorem cancel_nonresting_noop_witness :
    cancelOrder emptyEngineState 5 = (emptyEngineState, CancelResult.notCancellable) :=
  cancel_nonresting_noop emptyEngineState 5 rfl

/-- C8: when gas estimation fails for a settlement batch, every trade of the
batch is marked FAILED, the compensating balance-unlock message is the only
output, and no nonce is consumed (`nextNonce` and the in-flight list are
untouched). -/
theorem settlement_failure_compensates (estimateGas : List Nat → Option Nat)
    (s : SettleState) (batch : List Nat) (h : estimateGas batch = none) :
    (∀ t ∈ batch, (submitSettlementBatch estimateGas s batch).1.tradeStatus t
        = some TradeStatus.FAILED) ∧
    (submitSettlementBatch estimateGas s batch).2 = [OutMsg.unlockBalances batch] ∧
    (submitSettlementBatch estimateGas s batch).1.nextNonce = s.nextNonce ∧
    (submitSettlementBatch estimateGas s batch).1.pending = s.pending := by
  refine ⟨?_, ?_, ?_, ?_⟩ <;> simp [submitSettlementBatch, h]
  intro t ht
  simp [ht]

/-- C8 witness: a two-trade batch whose gas estimation fails: both trades end
FAILED, the unlock message is emitted, the nonce and in-flight list are
unchanged. -/
theorem settlement_failure_compensates_witness :
    (submitSettlementBatch gasFailAll settleW batchW).1.tradeStatus 101
        = some TradeStatus.FAILED ∧
    (submitSettlementBatch gasFailAll settleW batchW).2 = [OutMsg.unlockBalances batchW] ∧
    (submitSettlementBatch gasFailAll settleW batchW).1.nextNonce = settleW.nextNonce ∧
    (submitSettlementBatch gasFailAll settleW batchW).1.pending = settleW.pending :=
  ⟨(settlement_failure_compensates gasFailAll settleW batchW rfl).1 101 (by decide),
   (settlement_failure_compensates gasFailAll settleW batchW rfl).2.1,
   (settlement_failure_compensates gasFailAll settleW batchW rfl).2.2.1,
   (settlement_failure_compensates gasFailAll settleW batchW rfl).2.2.2⟩

/-! ### Idempotence of the Lifecycle Manager (C3) -/

/-- A fill update is already covered by a state: the order record at its hash
has absorbed a fill-sequence at least as large. -/
def coveredU (s : LifecycleState) (u : FillUpdate) : Prop :=
  ∃ r, s.orders u.hash = some r ∧ u.seq ≤ r.fillSeq

/-- A trade hash is already covered: a record with that hash exists. -/
def coveredT (s : LifecycleState) (h : Nat) : Prop :=
  ∃ st, s.trades h = some st

theorem applyFillUpdate_of_covered {s : LifecycleState} {u : FillUpdate}
    (h : coveredU s u) : applyFillUpdate s u = s := by
  obtain ⟨r, hr, hseq⟩ := h
  simp [applyFillUpdate, hr, hseq]

theorem coveredU_applyFillUpdate_self (s : LifecycleState) (u : FillUpdate) :
    coveredU (applyFillUpdate s u) u := by
  unfold applyFillUpdate
  cases hr : s.orders u.hash with
  | none => exact ⟨⟨u.remaining, u.original, u.status, u.seq⟩, by simp, le_refl _⟩
  | some r =>
    by_cases hseq : u.seq ≤ r.fillSeq
    · exact ⟨r, by simp [hseq, hr], hseq⟩
    · exact ⟨⟨u.remaining, u.original, u.status, u.seq⟩, by simp [hseq], le_refl _⟩

theorem coveredU_mono {s : LifecycleState} {u : FillUpdate} (v : FillUpdate)
    (h : coveredU s u) : coveredU (applyFillUpdate s v) u := by
  obtain ⟨r, hr, hseq⟩ := h
  unfold applyFillUpdate
  cases hv : s.orders v.hash with
  | none =>
    by_cases he : u.hash = v.hash
    · rw [he] at hr; rw [hr] at hv; cases hv
    · exact ⟨r, by simp [he, hr], hseq⟩
  | some rv =>
    by_cases hvseq : v.seq ≤ rv.fillSeq
    · exact ⟨r, by simp [hvseq, hr], hseq⟩
    · by_cases he : u.hash = v.hash
      · rw [he] at hr; rw [hr] at hv
        injection hv with hv'
        subst hv'
        refine ⟨⟨v.remaining, v.original, v.status, v.seq⟩, by simp [hvseq, he], ?_⟩
        show u.seq ≤ v.seq
        omega
      · exact ⟨r, by simp [hvseq, he, hr], hseq⟩

theorem coveredU_foldl {s : LifecycleState} {u : FillUpdate} (l : List FillUpdate)
    (h : coveredU s u) : coveredU (l.foldl applyFillUpdate s) u := by
  induction l generalizing s with
  | nil => exact h
  | cons v vs ih => exact ih (coveredU_mono v h)

theorem coveredU_all (s : LifecycleState) (l : List FillUpdate) :
    ∀ u ∈ l, coveredU (l.foldl applyFillUpdate s) u := by
  induction l generalizing s with
  | nil => intro u hu; cases hu
  | cons v vs ih =>
    intro u hu
    rcases List.mem_cons.mp hu with h | h
    · subst h
      exact coveredU_foldl vs (coveredU_applyFillUpdate_self s u)
    · exact ih (applyFillUpdate s v) u h

theorem foldl_applyFillUpdate_of_covered {s : LifecycleState} {l : List FillUpdate}
    (h : ∀ u ∈ l, coveredU s u) : l.foldl applyFillUpdate s = s := by
  induction l with
  | nil => rfl
  | cons v vs ih =>
    have hv : applyFillUpdate s v = s := applyFillUpdate_of_covered (h v (by simp))
    simp only [List.foldl_cons, hv]
    exact ih (fun u hu => h u (List.mem_cons_of_mem v hu))

theorem applyTradeCreate_of_covered {s : LifecycleState} {h : Nat}
    (hc : coveredT s h) : applyTradeCreate s h = s := by
  obtain ⟨st, hst⟩ := hc
  simp [applyTradeCreate, hst]

theorem coveredT_applyTradeCreate_self (s : LifecycleState) (h : Nat) :
    coveredT (applyTradeCreate s h) h := by
  unfold applyTradeCreate
  cases hst : s.trades h with
  | none => exact ⟨TradeStatus.PENDING, by simp⟩
  | some st => exact ⟨st, by simp [hst]⟩

theorem coveredT_mono {s : LifecycleState} {h : Nat} (h' : Nat)
    (hc : coveredT s h) : coveredT (applyTradeCreate s h') h := by
  obtain ⟨st, hst⟩ := hc
  unfold applyTradeCreate
  cases hst' : s.trades h' with
  | none =>
    by_cases he : h = h'
    · rw [he] at hst; rw [hst] at hst'; cases hst'
    · exact ⟨st, by simp [he, hst]⟩
  | some st' => exact ⟨st, by simp [hst', hst]⟩

theorem coveredT_foldl {s : LifecycleState} {h : Nat} (l : List Nat)
    (hc : coveredT s h) : coveredT (l.foldl applyTradeCreate s) h := by
  induction l generalizing s with
  | nil => exact hc
  | cons v vs ih => exact ih (coveredT_mono v hc)

theorem coveredT_all (s : LifecycleState) (l : List Nat) :
    ∀ h ∈ l, coveredT (l.foldl applyTradeCreate s) h := by
  induction l generalizing s with
  | nil => intro h hh; cases hh
  | cons v vs ih =>
    intro h hh
    rcases List.mem_cons.mp hh with h1 | h1
    · subst h1
      exact coveredT_foldl vs (coveredT_applyTradeCreate_self s h)
    · exact ih (applyTradeCreate s v) h h1

theorem foldl_applyTradeCreate_of_covered {s : LifecycleState} {l : List Nat}
    (hc : ∀ h ∈ l, coveredT s h) : l.foldl applyTradeCreate s = s := by
  induction l with
  | nil => rfl
  | cons v vs ih =>
    have hv : applyTradeCreate s v = s := applyTradeCreate_of_covered (hc v (by simp))
    simp only [List.foldl_cons, hv]
    exact ih (fun h hh => hc h (List.mem_cons_of_mem v hh))

theorem applyTradeCreate_orders (s : LifecycleState) (h : Nat) :
    (applyTradeCreate s h).orders = s.orders := by
  unfold applyTradeCreate
  cases hst : s.trades h <;> simp

theorem foldl_applyTradeCreate_orders (s : LifecycleState) (l : List Nat) :
    (l.foldl applyTradeCreate s).orders = s.orders := by
  induction l generalizing s with
  | nil => rfl
  | cons v vs ih => simp only [List.foldl_cons, ih, applyTradeCreate_orders]

/-- C3: `HandleEngineResponse` is idempotent — applying the same EngineResponse
twice to the Lifecycle Manager yields exactly the same final order and trade
state as applying it once; a replayed response never decrements an order's
remaining quantity a second time, because every fill update and every trade
hash of the response is already covered after the first application. -/
theorem handleEngineResponse_idempotent (r : LifecycleResponse) (s : LifecycleState) :
    applyEngineResponse r (applyEngineResponse r s) = applyEngineResponse r s := by
  unfold applyEngineResponse
  set s1 := r.updates.foldl applyFillUpdate s with hs1
  set s2 := r.tradeHashes.foldl applyTradeCreate s1 with hs2
  have hU : ∀ u ∈ r.updates, coveredU s2 u := by
    intro u hu
    have h1 := coveredU_all s r.updates u hu
    rw [← hs1] at h1
    obtain ⟨rec, hrec, hseq⟩ := h1
    refine ⟨rec, ?_, hseq⟩
    rw [hs2, foldl_applyTradeCreate_orders]
    exact hrec
  have hT : ∀ h ∈ r.tradeHashes, coveredT s2 h := by
    intro h hh
    rw [hs2]
    exact coveredT_all s1 r.tradeHashes h hh
  rw [foldl_applyFillUpdate_of_covered hU, foldl_applyTradeCreate_of_covered hT]

/-! ### Nonce discipline of the Settlement Operator (C5) -/

/-- The operator's nonce-tracking invariant: the next nonce sits right after
everything submitted, the submitted nonces are consecutive from the start
nonce in submission order, and every submitted nonce is either resolved (in
resolution order) or still in flight. -/
def OperatorInv (n0 : Nat) (s : OperatorState) : Prop :=
  s.nextNonce = n0 + s.submitted.length ∧
  s.submitted = List.range' n0 s.submitted.length ∧
  s.resolved.map Prod.fst ++ s.pending = s.submitted

theorem operatorStep_inv {n0 : Nat} {s : OperatorState} (e : ChainEvent)
    (h : OperatorInv n0 s) : OperatorInv n0 (operatorStep s e) := by
  obtain ⟨hn, hs, hr⟩ := h
  cases e with
  | submitBatch =>
    refine ⟨?_, ?_, ?_⟩
    · show s.nextNonce + 1 = n0 + (s.submitted ++ [s.nextNonce]).length
      simp only [List.length_append, List.length_cons, List.length_nil]
      omega
    · show s.submitted ++ [s.nextNonce]
          = List.range' n0 (s.submitted ++ [s.nextNonce]).length
      have hL : (s.submitted ++ [s.nextNonce]).length = s.submitted.length + 1 := by simp
      rw [hL, hn, Nat.add_comm s.submitted.length 1]
      have h2 := List.range'_append_1 n0 s.submitted.length 1
      simp only [List.range'_one] at h2
      rw [← h2, ← hs]
    · show s.resolved.map Prod.fst ++ (s.pending ++ [s.nextNonce])
          = s.submitted ++ [s.nextNonce]
      rw [← List.append_assoc, hr]
  | confirmNext =>
    cases hp : s.pending with
    | nil =>
      have hstep : operatorStep s ChainEvent.confirmNext = s := by
        simp [operatorStep, hp]
      rw [hstep]
      exact ⟨hn, hs, hr⟩
    | cons n rest =>
      have hmap : (s.resolved ++ [(n, true)]).map Prod.fst ++ rest
          = s.resolved.map Prod.fst ++ s.pending := by
        rw [hp]
        simp
      refine ⟨?_, ?_, ?_⟩ <;> simp only [operatorStep, hp]
      · exact hn
      · exact hs
      · rw [hmap, hr]
  | failNext =>
    cases hp : s.pending with
    | nil =>
      have hstep : operatorStep s ChainEvent.failNext = s := by
        simp [operatorStep, hp]
      rw [hstep]
      exact ⟨hn, hs, hr⟩
    | cons n rest =>
      have hmap : (s.resolved ++ [(n, false)]).map Prod.fst ++ rest
          = s.resolved.map Prod.fst ++ s.pending := by
        rw [hp]
        simp
      refine ⟨?_, ?_, ?_⟩ <;> simp only [operatorStep, hp]
      · exact hn
      · exact hs
      · rw [hmap, hr]

theorem runOperator_inv (n0 : Nat) (es : List ChainEvent) :
    OperatorInv n0 (runOperator n0 es) := by
  have base : OperatorInv n0 ⟨n0, [], [], []⟩ := ⟨by simp, by simp, by simp⟩
  unfold runOperator
  generalize hstart : (⟨n0, [], [], []⟩ : OperatorState) = start
  rw [hstart] at base
  clear hstart
  induction es generalizing start with
  | nil => exact base
  | cons e es ih => exact ih (operatorStep start e) (operatorStep_inv e base)

/-- C5: for any signing account (start nonce `n0`) and any interleaving of
submissions and chain resolutions, the Settlement Operator assigns nonces
strictly in submission order (the submitted nonces are exactly the consecutive
range from `n0`, so no nonce is ever reused while another is in flight), every
submitted nonce is either resolved or still pending, and the nonces observed
confirmed on chain form an order-preserving subsequence of the submission
sequence — transactions are never observed confirmed out of submission
order. -/
theorem operator_nonce_ordering (n0 : Nat) (es : List ChainEvent) :
    (runOperator n0 es).submitted
        = List.range' n0 (runOperator n0 es).submitted.length ∧
    (runOperator n0 es).resolved.map Prod.fst ++ (runOperator n0 es).pending
        = (runOperator n0 es).submitted ∧
    List.Sublist (confirmedNonces (runOperator n0 es)) (runOperator n0 es).submitted := by
  obtain ⟨hn, hs, hr⟩ := runOperator_inv n0 es
  refine ⟨hs, hr, ?_⟩
  have h1 : List.Sublist (confirmedNonces (runOperator n0 es))
      ((runOperator n0 es).resolved.map Prod.fst) := by
    unfold confirmedNonces
    exact List.Sublist.map _ (List.filter_sublist _)
  have h2 : List.Sublist ((runOperator n0 es).resolved.map Prod.fst)
      ((runOperator n0 es).submitted) := by
    rw [← hr]
    exact List.sublist_append_left _ _
  exact h1.trans h2

/-! ### Maker pricing (C1) -/

theorem matchLoop_taker (opp : List Order) : ∀ (o : Order),
    ∃ q, (matchLoop o opp).1 = { o with remaining := q } := by
  induction opp with
  | nil => intro o; exact ⟨o.remaining, rfl⟩
  | cons r rs ih =>
    intro o
    by_cases hc : (crosses o r && decide (0 < o.remaining)) = true
    · simp only [matchLoop, hc, if_true]
      by_cases hf : r.remaining - min o.remaining r.remaining ≤ 0
      · simp only [hf, if_true]
        obtain ⟨q, hq⟩ := ih { o with remaining := o.remaining - min o.remaining r.remaining }
        exact ⟨q, by rw [hq]⟩
      · simp only [hf, if_false]
        exact ⟨o.remaining - min o.remaining r.remaining, rfl⟩
    · simp only [matchLoop, hc, if_false]
      exact ⟨o.remaining, rfl⟩

theorem matchLoop_trades_spec (opp : List Order) : ∀ (o : Order),
    ∀ t ∈ (matchLoop o opp).2.2.1,
      t.taker = o.hash ∧ ∃ r ∈ opp, t.maker = r.hash ∧ t.price = r.price := by
  induction opp with
  | nil => intro o t ht; simp [matchLoop] at ht
  | cons r rs ih =>
    intro o t ht
    by_cases hc : (crosses o r && decide (0 < o.remaining)) = true
    · simp only [matchLoop, hc, if_true] at ht
      by_cases hf : r.remaining - min o.remaining r.remaining ≤ 0
      · simp only [hf, if_true, List.mem_cons] at ht
        rcases ht with h1 | h1
        · subst h1
          exact ⟨rfl, r, List.mem_cons_self r rs, rfl, rfl⟩
        · obtain ⟨hta, rr, hrr, hm, hp⟩ :=
            ih { o with remaining := o.remaining - min o.remaining r.remaining } t h1
          exact ⟨hta, rr, List.mem_cons_of_mem r hrr, hm, hp⟩
      · simp only [hf, if_false, List.mem_cons, List.not_mem_nil, or_false] at ht
        subst ht
        exact ⟨rfl, r, List.mem_cons_self r rs, rfl, rfl⟩
    · simp only [matchLoop, hc, if_false] at ht
      simp at ht

theorem process_trades_eq (o : Order) (b : Book) :
    (process o b).1.trades = (matchLoop o (oppositeOf b o.side)).2.2.1 := by
  unfold process
  by_cases h : (matchLoop o (oppositeOf b o.side)).1.remaining ≤ 0
  · simp [h]
  · cases ht : o.typ <;> simp [h, ht]

theorem process_taker_fields (o : Order) (b : Book) :
    (process o b).1.taker.hash = o.hash ∧ (process o b).1.taker.side = o.side := by
  obtain ⟨q, hq⟩ := matchLoop_taker (oppositeOf b o.side) o
  by_cases h : (matchLoop o (oppositeOf b o.side)).1.remaining ≤ 0
  · replace h : q ≤ 0 := by rw [hq] at h; exact h
    simp [process, h, hq]
  · replace h : ¬q ≤ 0 := by rw [hq] at h; exact h
    cases ht : o.typ <;> simp [process, h, hq, ht]

theorem runEngine_maker_price (os : List Order) : ∀ (b pre : Book) (resp : EngineResponse),
    (pre, resp) ∈ (runEngine os b).1 →
    ∀ t ∈ resp.trades,
      t.taker = resp.taker.hash ∧
      ∃ r ∈ oppositeOf pre resp.taker.side, t.maker = r.hash ∧ t.price = r.price := by
  induction os with
  | nil => intro b pre resp h; simp [runEngine] at h
  | cons o os ih =>
    intro b pre resp h
    simp only [runEngine, List.mem_cons] at h
    rcases h with h | h
    · rw [Prod.mk.injEq] at h
      obtain ⟨hpre, hresp⟩ := h
      subst hpre
      subst hresp
      intro t ht
      rw [process_trades_eq o pre] at ht
      obtain ⟨hhash, hside⟩ := process_taker_fields o pre
      obtain ⟨hta, rr, hrr, hm, hp⟩ := matchLoop_trades_spec (oppositeOf pre o.side) o t ht
      rw [hhash, hside]
      exact ⟨hta, rr, hrr, hm, hp⟩
    · exact ih (process o b).2 pre resp h

/-- C1: over any sequence of orders processed on one pair starting from the
empty book, every trade an `EngineResponse` reports has the incoming order as
taker and its price equal to the price of the resting (maker) order it matched
against — an order resting on the opposite side of the book the engine saw at
that step — never the incoming order's own price. -/
theorem trade_price_is_maker_price (os : List Order) (pre : Book)
    (resp : EngineResponse) (hmem : (pre, resp) ∈ (runEngine os Book.empty).1) :
    ∀ t ∈ resp.trades,
      t.taker = resp.taker.hash ∧
      ∃ r ∈ oppositeOf pre resp.taker.side, t.maker = r.hash ∧ t.price = r.price :=
  runEngine_maker_price os Book.empty pre resp hmem

/-- C1 witness: the spec's own scenario — a resting buy at 100 matched by an
incoming sell: the trade carries the maker's price 100. -/
theorem trade_price_is_maker_price_witness :
    (⟨1, 2, 100, 4⟩ : Trade).taker = resp1W.taker.hash ∧
    ∃ r ∈ oppositeOf pre1W resp1W.taker.side,
      (⟨1, 2, 100, 4⟩ : Trade).maker = r.hash ∧ (⟨1, 2, 100, 4⟩ : Trade).price = r.price :=
  trade_price_is_maker_price osW pre1W resp1W (by decide) ⟨1, 2, 100, 4⟩ (by decide)

/-! ### Time priority inside a price level (C4) -/

theorem matchLoop_fifo (l1 : List Order) :
    ∀ (o r1 : Order) (l2 : List Order) (r2 : Order) (l3 : List Order),
    r2.hash ≠ r1.hash → r2.hash ∉ l1.map Order.hash →
    r2.hash ∈ (matchLoop o (l1 ++ r1 :: l2 ++ r2 :: l3)).2.2.1.map Trade.maker →
    ∃ pre suf, (matchLoop o (l1 ++ r1 :: l2 ++ r2 :: l3)).2.2.1.map Trade.maker
        = pre ++ r1.hash :: suf ∧ r2.hash ∈ suf := by
  induction l1 with
  | nil =>
    intro o r1 l2 r2 l3 hne _ hmem
    simp only [List.nil_append] at hmem ⊢
    by_cases hc : (crosses o r1 && decide (0 < o.remaining)) = true
    · simp only [matchLoop, hc, if_true] at hmem ⊢
      by_cases hf : r1.remaining - min o.remaining r1.remaining ≤ 0
      · simp only [hf, if_true, List.map_cons] at hmem ⊢
        refine ⟨[], _, rfl, ?_⟩
        rcases List.mem_cons.mp hmem with h | h
        · exact absurd h hne
        · exact h
      · simp only [hf, if_false, List.map_cons, List.map_nil] at hmem
        rcases List.mem_cons.mp hmem with h | h
        · exact absurd h hne
        · cases h
    · simp only [matchLoop, hc, if_false, List.map_nil] at hmem
      cases hmem
  | cons x l1' ih =>
    intro o r1 l2 r2 l3 hne hnotin hmem
    have hnx : r2.hash ≠ x.hash := by
      intro he
      exact hnotin (by simp [he])
    have hnot' : r2.hash ∉ l1'.map Order.hash := fun hh => hnotin (by simp [hh])
    simp only [List.cons_append] at hmem ⊢
    by_cases hc : (crosses o x && decide (0 < o.remaining)) = true
    · simp only [matchLoop, hc, if_true] at hmem ⊢
      by_cases hf : x.remaining - min o.remaining x.remaining ≤ 0
      · simp only [hf, if_true, List.map_cons] at hmem ⊢
        rcases List.mem_cons.mp hmem with h | h
        · exact absurd h hnx
        · obtain ⟨pre, suf, heq, hsuf⟩ := ih _ r1 l2 r2 l3 hne hnot' h
          refine ⟨x.hash :: pre, suf, ?_, hsuf⟩
          rw [heq]
          rfl
      · simp only [hf, if_false, List.map_cons, List.map_nil] at hmem
        rcases List.mem_cons.mp hmem with h | h
        · exact absurd h hnx
        · cases h
    · simp only [matchLoop, hc, if_false, List.map_nil] at hmem
      cases hmem

/-- C4: strict FIFO inside a price level — when the opposing side of the book
holds resting orders `r1` (inserted earlier) and `r2` (later) at the same
price, any `process` call whose trades touch `r2` has already produced a trade
against `r1` strictly earlier in its trade list: the earlier resting order is
always matched first, with no pro-rata allocation. -/
theorem fifo_same_price_level (o : Order) (b : Book) (l1 : List Order) (r1 : Order)
    (l2 : List Order) (r2 : Order) (l3 : List Order)
    (hopp : oppositeOf b o.side = l1 ++ r1 :: l2 ++ r2 :: l3)
    (_hprice : r1.price = r2.price)
    (hne : r2.hash ≠ r1.hash) (hnotin : r2.hash ∉ l1.map Order.hash)
    (hmem : r2.hash ∈ (process o b).1.trades.map Trade.maker) :
    ∃ pre suf, (process o b).1.trades.map Trade.maker = pre ++ r1.hash :: suf ∧
      r2.hash ∈ suf := by
  rw [process_trades_eq o b, hopp] at hmem ⊢
  exact matchLoop_fifo l1 o r1 l2 r2 l3 hne hnotin hmem

/-- C4 witness: two resting asks at price 100; a crossing buy for both: the
maker sequence of the trades is the earlier ask first, the later ask strictly
after it. -/
theorem fifo_same_price_level_witness :
    ∃ pre suf, (process buyBigW bookW).1.trades.map Trade.maker
        = pre ++ mk1W.hash :: suf ∧ mk2W.hash ∈ suf :=
  fifo_same_price_level buyBigW bookW [] mk1W [] mk2W [] (by rfl) (by decide)
    (by decide) (by decide) (by decide)

/-! ### Quantity invariants (C2) -/

/-- The book invariant (spec §3): every resting order has strictly positive
remaining quantity bounded by its original quantity. -/
def BookInv (b : Book) : Prop :=
  ∀ r ∈ b.allOrders, 0 < r.remaining ∧ r.remaining ≤ r.original

theorem matchLoop_shrink (opp : List Order) : ∀ (o : Order),
    0 ≤ o.remaining → (∀ r ∈ opp, 0 < r.remaining ∧ r.remaining ≤ r.original) →
    (0 ≤ (matchLoop o opp).1.remaining ∧ (matchLoop o opp).1.remaining ≤ o.remaining) ∧
    (∀ r' ∈ (matchLoop o opp).2.1,
      (0 < r'.remaining ∧ r'.remaining ≤ r'.original) ∧
      ∃ r ∈ opp, r'.hash = r.hash ∧ r'.original = r.original ∧ r'.remaining ≤ r.remaining) ∧
    (∀ m ∈ (matchLoop o opp).2.2.2,
      (0 ≤ m.remaining ∧ m.remaining ≤ m.original) ∧
      ∃ r ∈ opp, m.hash = r.hash ∧ m.original = r.original ∧ m.remaining ≤ r.remaining) := by
  induction opp with
  | nil =>
    intro o ho _
    exact ⟨⟨ho, le_refl _⟩, fun z hz => absurd hz (List.not_mem_nil z),
      fun z hz => absurd hz (List.not_mem_nil z)⟩
  | cons r rs ih =>
    intro o ho hopp
    have hr := hopp r (List.mem_cons_self r rs)
    have hrs : ∀ z ∈ rs, 0 < z.remaining ∧ z.remaining ≤ z.original :=
      fun z hz => hopp z (List.mem_cons_of_mem r hz)
    by_cases hc : (crosses o r && decide (0 < o.remaining)) = true
    · have hopos : 0 < o.remaining :=
        of_decide_eq_true ((Bool.and_eq_true _ _).mp hc).2
      have hamt_pos : (0 : Int) < min o.remaining r.remaining := lt_min hopos hr.1
      have hamt_le_o : min o.remaining r.remaining ≤ o.remaining := min_le_left _ _
      have hamt_le_r : min o.remaining r.remaining ≤ r.remaining := min_le_right _ _
      have hsub_o : (0 : Int) ≤ o.remaining - min o.remaining r.remaining :=
        sub_nonneg.mpr hamt_le_o
      have hsub_o_le : o.remaining - min o.remaining r.remaining ≤ o.remaining :=
        sub_le_self _ (le_of_lt hamt_pos)
      have hsub_r : (0 : Int) ≤ r.remaining - min o.remaining r.remaining :=
        sub_nonneg.mpr hamt_le_r
      have hsub_r_le : r.remaining - min o.remaining r.remaining ≤ r.remaining :=
        sub_le_self _ (le_of_lt hamt_pos)
      by_cases hf : r.remaining - min o.remaining r.remaining ≤ 0
      · simp only [matchLoop, hc, if_true, hf]
        obtain ⟨⟨ha1, ha2⟩, hb, hm⟩ :=
          ih { o with remaining := o.remaining - min o.remaining r.remaining } hsub_o hrs
        refine ⟨⟨ha1, le_trans ha2 hsub_o_le⟩, ?_, ?_⟩
        · intro r' hr'
          obtain ⟨hgood, z, hz, hhz, hoz, hrz⟩ := hb r' hr'
          exact ⟨hgood, z, List.mem_cons_of_mem r hz, hhz, hoz, hrz⟩
        · intro m hmm
          rcases List.mem_cons.mp hmm with h1 | h1
          · subst h1
            exact ⟨⟨hsub_r, le_trans hsub_r_le hr.2⟩,
              r, List.mem_cons_self r rs, rfl, rfl, hsub_r_le⟩
          · obtain ⟨hgood, z, hz, hhz, hoz, hrz⟩ := hm m h1
            exact ⟨hgood, z, List.mem_cons_of_mem r hz, hhz, hoz, hrz⟩
      · simp only [matchLoop, hc, if_true, hf, if_false]
        have hpos' : (0 : Int) < r.remaining - min o.remaining r.remaining := lt_of_not_le hf
        refine ⟨⟨hsub_o, hsub_o_le⟩, ?_, ?_⟩
        · intro r' hr'
          rcases List.mem_cons.mp hr' with h1 | h1
          · subst h1
            exact ⟨⟨hpos', le_trans hsub_r_le hr.2⟩,
              r, List.mem_cons_self r rs, rfl, rfl, hsub_r_le⟩
          · exact ⟨hrs r' h1, r', List.mem_cons_of_mem r h1, rfl, rfl, le_refl _⟩
        · intro m hmm
          rcases List.mem_cons.mp hmm with h1 | h1
          · subst h1
            exact ⟨⟨hsub_r, le_trans hsub_r_le hr.2⟩,
              r, List.mem_cons_self r rs, rfl, rfl, hsub_r_le⟩
          · cases h1
    · simp only [matchLoop, hc, if_false]
      refine ⟨⟨ho, le_refl _⟩, ?_, fun z hz => absurd hz (List.not_mem_nil z)⟩
      intro r' hr'
      exact ⟨hopp r' hr', r', hr', rfl, rfl, le_refl _⟩

theorem mem_insertOrder {r o : Order} : ∀ {l : List Order}, r ∈ insertOrder o l → r = o ∨ r ∈ l := by
  intro l
  induction l with
  | nil =>
    intro h
    simp [insertOrder] at h
    exact Or.inl h
  | cons x xs ih =>
    intro h
    by_cases hp : priorGE o.side x.price o.price = true
    · simp only [insertOrder, hp, if_true, List.mem_cons] at h
      rcases h with h | h
      · exact Or.inr (List.mem_cons.mpr (Or.inl h))
      · rcases ih h with h1 | h1
        · exact Or.inl h1
        · exact Or.inr (List.mem_cons.mpr (Or.inr h1))
    · simp only [insertOrder, hp, Bool.false_eq_true, if_false, List.mem_cons] at h
      rcases h with h | h
      · exact Or.inl h
      · exact Or.inr (List.mem_cons.mpr h)

theorem mem_oppositeOf {r : Order} {b : Book} {s : Side} (h : r ∈ oppositeOf b s) :
    r ∈ b.allOrders := by
  cases s
  · exact List.mem_append.mpr (Or.inr h)
  · exact List.mem_append.mpr (Or.inl h)

theorem mem_withOpposite {r : Order} {b : Book} {s : Side} {l : List Order}
    (h : r ∈ (b.withOpposite s l).allOrders) : r ∈ l ∨ r ∈ b.allOrders := by
  cases s <;> simp only [Book.withOpposite, Book.allOrders, List.mem_append] at h ⊢ <;> tauto

theorem mem_restOrder {r o : Order} {b : Book}
    (h : r ∈ (b.restOrder o).allOrders) : r = o ∨ r ∈ b.allOrders := by
  cases hs : o.side <;>
    simp only [Book.restOrder, hs, Book.allOrders, List.mem_append] at h ⊢
  · rcases h with h | h
    · rcases mem_insertOrder h with h1 | h1
      · exact Or.inl h1
      · exact Or.inr (Or.inl h1)
    · exact Or.inr (Or.inr h)
  · rcases h with h | h
    · exact Or.inr (Or.inl h)
    · rcases mem_insertOrder h with h1 | h1
      · exact Or.inl h1
      · exact Or.inr (Or.inr h1)

theorem process_shrink (o : Order) (b : Book)
    (ho : 0 ≤ o.remaining ∧ o.remaining ≤ o.original) (hb : BookInv b) :
    BookInv (process o b).2 ∧
    (0 ≤ (process o b).1.taker.remaining ∧
      (process o b).1.taker.remaining ≤ (process o b).1.taker.original) ∧
    ((process o b).1.taker.hash = o.hash ∧ (process o b).1.taker.original = o.original ∧
      (process o b).1.taker.remaining ≤ o.remaining) ∧
    (∀ m ∈ (process o b).1.makers,
      (0 ≤ m.remaining ∧ m.remaining ≤ m.original) ∧
      ∃ r ∈ b.allOrders, m.hash = r.hash ∧ m.original = r.original ∧
        m.remaining ≤ r.remaining) ∧
    (∀ r' ∈ ((process o b).2).allOrders,
      (∃ r ∈ b.allOrders, r'.hash = r.hash ∧ r'.original = r.original ∧
        r'.remaining ≤ r.remaining) ∨
      (r'.hash = o.hash ∧ r'.original = o.original ∧ r'.remaining ≤ o.remaining)) := by
  obtain ⟨q, hq⟩ := matchLoop_taker (oppositeOf b o.side) o
  have hoppinv : ∀ r ∈ oppositeOf b o.side, 0 < r.remaining ∧ r.remaining ≤ r.original :=
    fun r hr => hb r (mem_oppositeOf hr)
  obtain ⟨⟨ha1, ha2⟩, hbk, hmk⟩ := matchLoop_shrink (oppositeOf b o.side) o ho.1 hoppinv
  have ha1' : (0 : Int) ≤ q := by rw [hq] at ha1; exact ha1
  have ha2' : q ≤ o.remaining := by rw [hq] at ha2; exact ha2
  have hbk' : ∀ r' ∈ (matchLoop o (oppositeOf b o.side)).2.1,
      (0 < r'.remaining ∧ r'.remaining ≤ r'.original) ∧
      ∃ r ∈ b.allOrders, r'.hash = r.hash ∧ r'.original = r.original ∧
        r'.remaining ≤ r.remaining := by
    intro r' hr'
    obtain ⟨hgood, z, hz, h3⟩ := hbk r' hr'
    exact ⟨hgood, z, mem_oppositeOf hz, h3⟩
  have hmk' : ∀ m ∈ (matchLoop o (oppositeOf b o.side)).2.2.2,
      (0 ≤ m.remaining ∧ m.remaining ≤ m.original) ∧
      ∃ r ∈ b.allOrders, m.hash = r.hash ∧ m.original = r.original ∧
        m.remaining ≤ r.remaining := by
    intro m hm
    obtain ⟨hgood, z, hz, h3⟩ := hmk m hm
    exact ⟨hgood, z, mem_oppositeOf hz, h3⟩
  by_cases hrem : (matchLoop o (oppositeOf b o.side)).1.remaining ≤ 0
  · have hrem' : q ≤ 0 := by rw [hq] at hrem; exact hrem
    simp only [process, hq, hrem', if_true]
    refine ⟨?_, ⟨ha1', le_trans ha2' ho.2⟩, ⟨by trivial, by trivial, ha2'⟩, ?_, ?_⟩
    · intro r' hr'
      rcases mem_withOpposite hr' with h1 | h1
      · exact (hbk' r' h1).1
      · exact hb r' h1
    · exact hmk'
    · intro r' hr'
      rcases mem_withOpposite hr' with h1 | h1
      · exact Or.inl (hbk' r' h1).2
      · exact Or.inl ⟨r', h1, rfl, rfl, le_refl _⟩
  · have hrem' : ¬q ≤ 0 := by rw [hq] at hrem; exact hrem
    cases htyp : o.typ with
    | market =>
      simp only [process, hq, htyp, hrem', if_false]
      refine ⟨?_, ⟨ha1', le_trans ha2' ho.2⟩, ⟨by trivial, by trivial, ha2'⟩, ?_, ?_⟩
      · intro r' hr'
        rcases mem_withOpposite hr' with h1 | h1
        · exact (hbk' r' h1).1
        · exact hb r' h1
      · exact hmk'
      · intro r' hr'
        rcases mem_withOpposite hr' with h1 | h1
        · exact Or.inl (hbk' r' h1).2
        · exact Or.inl ⟨r', h1, rfl, rfl, le_refl _⟩
    | limit =>
      simp only [process, hq, htyp, hrem', if_false]
      refine ⟨?_, ⟨ha1', le_trans ha2' ho.2⟩, ⟨by trivial, by trivial, ha2'⟩, ?_, ?_⟩
      · intro r' hr'
        rcases mem_restOrder hr' with h1 | h1
        · subst h1
          exact ⟨lt_of_not_le hrem', le_trans ha2' ho.2⟩
        · rcases mem_withOpposite h1 with h2 | h2
          · exact (hbk' r' h2).1
          · exact hb r' h2
      · exact hmk'
      · intro r' hr'
        rcases mem_restOrder hr' with h1 | h1
        · subst h1
          exact Or.inr ⟨rfl, rfl, ha2'⟩
        · rcases mem_withOpposite h1 with h2 | h2
          · exact Or.inl (hbk' r' h2).2
          · exact Or.inl ⟨r', h2, rfl, rfl, le_refl _⟩

theorem runEngine_inv (os : List Order) : ∀ (b : Book),
    (∀ o ∈ os, 0 ≤ o.remaining ∧ o.remaining ≤ o.original) → BookInv b →
    ∀ pre resp, (pre, resp) ∈ (runEngine os b).1 →
      BookInv pre ∧
      (0 ≤ resp.taker.remaining ∧ resp.taker.remaining ≤ resp.taker.original) ∧
      (∃ o ∈ os, resp.taker.hash = o.hash ∧ resp.taker.original = o.original ∧
        resp.taker.remaining ≤ o.remaining) ∧
      (∀ m ∈ resp.makers, (0 ≤ m.remaining ∧ m.remaining ≤ m.original) ∧
        ∃ r ∈ pre.allOrders, m.hash = r.hash ∧ m.original = r.original ∧
          m.remaining ≤ r.remaining) := by
  induction os with
  | nil => intro b _ _ pre resp h; simp [runEngine] at h
  | cons o os ih =>
    intro b hos hb pre resp h
    have hogood := hos o (List.mem_cons_self o os)
    have hps := process_shrink o b hogood hb
    simp only [runEngine, List.mem_cons] at h
    rcases h with h | h
    · rw [Prod.mk.injEq] at h
      obtain ⟨hpre, hresp⟩ := h
      subst hpre
      subst hresp
      exact ⟨hb, hps.2.1, ⟨o, List.mem_cons_self o os, hps.2.2.1⟩, hps.2.2.2.1⟩
    · have hrest := ih (process o b).2 (fun z hz => hos z (List.mem_cons_of_mem o hz))
        hps.1 pre resp h
      refine ⟨hrest.1, hrest.2.1, ?_, hrest.2.2.2⟩
      obtain ⟨z, hz, hf⟩ := hrest.2.2.1
      exact ⟨z, List.mem_cons_of_mem o hz, hf⟩

theorem mem_removeByHash {r : Order} {b : Book} {h : Nat}
    (hr : r ∈ (b.removeByHash h).allOrders) : r ∈ b.allOrders := by
  simp only [Book.removeByHash, Book.allOrders, List.mem_append, List.mem_filter] at hr ⊢
  tauto

theorem cancelOrder_book_subset (s : EngineState) (h : Nat) :
    ∀ r ∈ (cancelOrder s h).1.book.allOrders, r ∈ s.book.allOrders := by
  intro r hr
  cases hf : findByHash h s.book.allOrders with
  | none =>
    simp only [cancelOrder, hf] at hr
    exact hr
  | some z =>
    simp only [cancelOrder, hf] at hr
    exact mem_removeByHash hr

theorem applyFillUpdate_at_own (s : LifecycleState) (u : FillUpdate) :
    (applyFillUpdate s u).orders u.hash = s.orders u.hash ∨
    (applyFillUpdate s u).orders u.hash
        = some ⟨u.remaining, u.original, u.status, u.seq⟩ := by
  cases ho : s.orders u.hash with
  | none =>
    right
    simp [applyFillUpdate, ho]
  | some r =>
    by_cases hseq : u.seq ≤ r.fillSeq
    · left
      simp [applyFillUpdate, ho, hseq]
    · right
      simp [applyFillUpdate, ho, hseq]

theorem applyFillUpdate_orders_ne (s : LifecycleState) (u : FillUpdate) (h : Nat)
    (hne : h ≠ u.hash) : (applyFillUpdate s u).orders h = s.orders h := by
  cases ho : s.orders u.hash with
  | none => simp [applyFillUpdate, ho, hne]
  | some r =>
    by_cases hseq : u.seq ≤ r.fillSeq
    · simp [applyFillUpdate, ho, hseq]
    · simp [applyFillUpdate, ho, hseq, hne]

theorem foldl_applyFillUpdate_cases (l : List FillUpdate) :
    ∀ (s : LifecycleState) (h : Nat),
    (l.foldl applyFillUpdate s).orders h = s.orders h ∨
    ∃ u ∈ l, u.hash = h ∧
      (l.foldl applyFillUpdate s).orders h
        = some ⟨u.remaining, u.original, u.status, u.seq⟩ := by
  induction l with
  | nil => intro s h; exact Or.inl rfl
  | cons u us ih =>
    intro s h
    rcases ih (applyFillUpdate s u) h with h1 | ⟨v, hv, hvh, h1⟩
    · by_cases he : h = u.hash
      · subst he
        rcases applyFillUpdate_at_own s u with h2 | h2
        · left
          rw [List.foldl_cons, h1, h2]
        · right
          exact ⟨u, List.mem_cons_self u us, rfl, by rw [List.foldl_cons, h1, h2]⟩
      · left
        rw [List.foldl_cons, h1, applyFillUpdate_orders_ne s u h he]
    · right
      exact ⟨v, List.mem_cons_of_mem u hv, hvh, by rw [List.foldl_cons]; exact h1⟩

theorem matchLoop_opp_hashes (opp : List Order) : ∀ (o : Order),
    ∃ k, (matchLoop o opp).2.1.map Order.hash = (opp.map Order.hash).drop k := by
  induction opp with
  | nil => intro o; exact ⟨0, rfl⟩
  | cons r rs ih =>
    intro o
    by_cases hc : (crosses o r && decide (0 < o.remaining)) = true
    · simp only [matchLoop, hc, if_true]
      by_cases hf : r.remaining - min o.remaining r.remaining ≤ 0
      · simp only [hf, if_true]
        obtain ⟨k, hk⟩ := ih { o with remaining := o.remaining - min o.remaining r.remaining }
        refine ⟨k + 1, ?_⟩
        rw [hk]
        rfl
      · simp only [hf, if_false]
        exact ⟨0, rfl⟩
    · simp only [matchLoop, hc, if_false]
      exact ⟨0, rfl⟩

theorem matchLoop_consistent (opp : List Order) : ∀ (o : Order),
    (opp.map Order.hash).Nodup →
    ∀ q ∈ (matchLoop o opp).2.1, ∀ m ∈ (matchLoop o opp).2.2.2,
      q.hash = m.hash → q = m := by
  induction opp with
  | nil =>
    intro o _ q hq
    simp [matchLoop] at hq
  | cons r rs ih =>
    intro o hnd q hq m hm hqm
    have hnd_rs : (rs.map Order.hash).Nodup := (List.nodup_cons.mp hnd).2
    have hr_notin : r.hash ∉ rs.map Order.hash := (List.nodup_cons.mp hnd).1
    by_cases hc : (crosses o r && decide (0 < o.remaining)) = true
    · simp only [matchLoop, hc, if_true] at hq hm
      by_cases hf : r.remaining - min o.remaining r.remaining ≤ 0
      · simp only [hf, if_true] at hq hm
        rcases List.mem_cons.mp hm with h1 | h1
        · exfalso
          obtain ⟨k, hk⟩ :=
            matchLoop_opp_hashes rs { o with remaining := o.remaining - min o.remaining r.remaining }
          have hmem : q.hash ∈ (rs.map Order.hash).drop k := by
            rw [← hk]
            exact List.mem_map_of_mem Order.hash hq
          have hmem2 : q.hash ∈ rs.map Order.hash := List.mem_of_mem_drop hmem
          rw [hqm, h1] at hmem2
          exact hr_notin hmem2
        · exact ih _ hnd_rs q hq m h1 hqm
      · simp only [hf, if_false] at hq hm
        rcases List.mem_cons.mp hm with h1 | h1
        · subst h1
          rcases List.mem_cons.mp hq with h2 | h2
          · exact h2
          · exfalso
            have hmem : q.hash ∈ rs.map Order.hash := List.mem_map_of_mem Order.hash h2
            rw [hqm] at hmem
            exact hr_notin hmem
        · cases h1
    · simp only [matchLoop, hc, if_false] at hq hm
      cases hm

theorem insertOrder_perm (o : Order) : ∀ (l : List Order), List.Perm (insertOrder o l) (o :: l) := by
  intro l
  induction l with
  | nil => exact List.Perm.refl _
  | cons x xs ih =>
    by_cases hp : priorGE o.side x.price o.price = true
    · simp only [insertOrder, hp, if_true]
      exact (List.Perm.cons x ih).trans (List.Perm.swap o x xs)
    · simp only [insertOrder, hp, Bool.false_eq_true, if_false]
      exact List.Perm.refl _

theorem process_makers_eq (o : Order) (b : Book) :
    (process o b).1.makers = (matchLoop o (oppositeOf b o.side)).2.2.2 := by
  unfold process
  by_cases h : (matchLoop o (oppositeOf b o.side)).1.remaining ≤ 0
  · simp [h]
  · cases ht : o.typ <;> simp [h, ht]

theorem mem_sameOf {q : Order} {b : Book} {s : Side} (h : q ∈ sameOf b s) :
    q ∈ b.allOrders := by
  cases s
  · exact List.mem_append.mpr (Or.inl h)
  · exact List.mem_append.mpr (Or.inr h)

theorem mem_withOpposite_precise {q : Order} {b : Book} {s : Side} {l : List Order}
    (h : q ∈ (b.withOpposite s l).allOrders) : q ∈ l ∨ q ∈ sameOf b s := by
  cases s <;>
    simp only [Book.withOpposite, sameOf, Book.allOrders, List.mem_append] at h ⊢ <;>
    tauto

theorem opposite_hashes_nodup {b : Book} {s : Side}
    (hnd : (b.allOrders.map Order.hash).Nodup) :
    ((oppositeOf b s).map Order.hash).Nodup := by
  cases s <;> simp only [oppositeOf, Book.allOrders, List.map_append] at hnd ⊢
  · exact (List.nodup_append.mp hnd).2.1
  · exact (List.nodup_append.mp hnd).1

theorem side_hash_disjoint {b : Book} {s : Side}
    (hnd : (b.allOrders.map Order.hash).Nodup) :
    ∀ x ∈ (sameOf b s).map Order.hash, x ∉ (oppositeOf b s).map Order.hash := by
  cases s <;>
    simp only [sameOf, oppositeOf, Book.allOrders, List.map_append] at hnd ⊢
  · exact fun x hx hy => (List.nodup_append.mp hnd).2.2 hx hy
  · intro x hx hy
    exact (List.nodup_append.mp hnd).2.2 hy hx

theorem withOpposite_nodup {b : Book} {s : Side} {l : List Order}
    (hnd : (b.allOrders.map Order.hash).Nodup)
    (hsub : List.Sublist (l.map Order.hash) ((oppositeOf b s).map Order.hash)) :
    (((b.withOpposite s l).allOrders).map Order.hash).Nodup := by
  cases s <;>
    simp only [Book.withOpposite, oppositeOf, Book.allOrders, List.map_append] at hnd hsub ⊢
  · exact List.Nodup.sublist (List.Sublist.append_left hsub _) hnd
  · exact List.Nodup.sublist (List.Sublist.append_right hsub _) hnd

theorem restOrder_nodup {b : Book} {o : Order}
    (hnd : (b.allOrders.map Order.hash).Nodup)
    (hfresh : o.hash ∉ b.allOrders.map Order.hash) :
    (((b.restOrder o).allOrders).map Order.hash).Nodup := by
  have hcons : (o.hash :: b.allOrders.map Order.hash).Nodup :=
    List.nodup_cons.mpr ⟨hfresh, hnd⟩
  cases hs : o.side <;>
    simp only [Book.restOrder, hs, Book.allOrders, List.map_append] at hcons ⊢
  · have hperm : List.Perm ((insertOrder o b.bids).map Order.hash ++ b.asks.map Order.hash)
        (o.hash :: (b.bids.map Order.hash ++ b.asks.map Order.hash)) := by
      have h1 := List.Perm.map Order.hash (insertOrder_perm o b.bids)
      exact List.Perm.append_right (b.asks.map Order.hash) h1
    exact hperm.symm.nodup hcons
  · have hperm : List.Perm (b.bids.map Order.hash ++ (insertOrder o b.asks).map Order.hash)
        (o.hash :: (b.bids.map Order.hash ++ b.asks.map Order.hash)) := by
      have h1 := List.Perm.map Order.hash (insertOrder_perm o b.asks)
      have h2 : List.Perm (b.bids.map Order.hash ++ (insertOrder o b.asks).map Order.hash)
          (b.bids.map Order.hash ++ (o.hash :: b.asks.map Order.hash)) :=
        List.Perm.append_left _ h1
      exact h2.trans List.perm_middle
    exact hperm.symm.nodup hcons

theorem mem_process_book {q : Order} (o : Order) (b : Book)
    (hq : q ∈ ((process o b).2).allOrders) :
    q = (process o b).1.taker ∨ q ∈ (matchLoop o (oppositeOf b o.side)).2.1 ∨
      q ∈ sameOf b o.side := by
  by_cases hrem : (matchLoop o (oppositeOf b o.side)).1.remaining ≤ 0
  · simp only [process, hrem, if_true] at hq ⊢
    rcases mem_withOpposite_precise hq with h | h
    · exact Or.inr (Or.inl h)
    · exact Or.inr (Or.inr h)
  · cases htyp : o.typ with
    | market =>
      simp only [process, hrem, htyp, if_false] at hq ⊢
      rcases mem_withOpposite_precise hq with h | h
      · exact Or.inr (Or.inl h)
      · exact Or.inr (Or.inr h)
    | limit =>
      simp only [process, hrem, htyp, if_false] at hq ⊢
      rcases mem_restOrder hq with h | h
      · exact Or.inl h
      · rcases mem_withOpposite_precise h with h1 | h1
        · exact Or.inr (Or.inl h1)
        · exact Or.inr (Or.inr h1)

theorem process_book_nodup (o : Order) (b : Book)
    (hnd : (b.allOrders.map Order.hash).Nodup)
    (hfresh : o.hash ∉ b.allOrders.map Order.hash) :
    (((process o b).2).allOrders.map Order.hash).Nodup := by
  obtain ⟨k, hk⟩ := matchLoop_opp_hashes (oppositeOf b o.side) o
  have hsub : List.Sublist ((matchLoop o (oppositeOf b o.side)).2.1.map Order.hash)
      ((oppositeOf b o.side).map Order.hash) := by
    rw [hk]
    exact List.drop_sublist k _
  have hbase := withOpposite_nodup (b := b) (s := o.side)
    (l := (matchLoop o (oppositeOf b o.side)).2.1) hnd hsub
  by_cases hrem : (matchLoop o (oppositeOf b o.side)).1.remaining ≤ 0
  · simp only [process, hrem, if_true]
    exact hbase
  · cases htyp : o.typ with
    | market =>
      simp only [process, hrem, htyp, if_false]
      exact hbase
    | limit =>
      simp only [process, hrem, htyp, if_false]
      refine restOrder_nodup hbase ?_
      intro hmem
      rw [List.mem_map] at hmem
      obtain ⟨q, hq, hqh⟩ := hmem
      obtain ⟨q0, hq0⟩ := matchLoop_taker (oppositeOf b o.side) o
      rw [hq0] at hqh
      dsimp only at hqh
      rcases mem_withOpposite_precise hq with h1 | h1
      · have hqm : q.hash ∈ (oppositeOf b o.side).map Order.hash :=
          hsub.subset (List.mem_map_of_mem Order.hash h1)
        rw [List.mem_map] at hqm
        obtain ⟨r, hr, hrh⟩ := hqm
        apply hfresh
        rw [← hqh, ← hrh]
        exact List.mem_map_of_mem Order.hash (mem_oppositeOf hr)
      · apply hfresh
        rw [← hqh]
        exact List.mem_map_of_mem Order.hash (mem_sameOf h1)

theorem pipeline_step (o : Order) (b : Book) (L : LifecycleState) (seq : Nat) (ths : List Nat)
    (hbInv : BookInv b) (hbN : (b.allOrders.map Order.hash).Nodup)
    (ho : 0 ≤ o.remaining ∧ o.remaining ≤ o.original)
    (hLB : ∀ h rec, L.orders h = some rec → 0 ≤ rec.remaining ∧ rec.remaining ≤ rec.original)
    (hCorr : ∀ q ∈ b.allOrders, ∃ rec, L.orders q.hash = some rec ∧
        q.remaining ≤ rec.remaining ∧ q.original = rec.original)
    (hFresh : L.orders o.hash = none) :
    (∀ h rec, (lifecycleStep o b seq ths L).orders h = some rec →
        0 ≤ rec.remaining ∧ rec.remaining ≤ rec.original) ∧
    (∀ q ∈ ((process o b).2).allOrders,
        ∃ rec, (lifecycleStep o b seq ths L).orders q.hash = some rec ∧
          q.remaining ≤ rec.remaining ∧ q.original = rec.original) ∧
    (∀ h, L.orders h = none → h ≠ o.hash → h ∉ b.allOrders.map Order.hash →
        (lifecycleStep o b seq ths L).orders h = none) ∧
    NoIncrease L (lifecycleStep o b seq ths L) := by
  have hps := process_shrink o b ho hbInv
  have htk := hps.2.1
  have htkf := hps.2.2.1
  have hmk := hps.2.2.2.1
  have horders : ∀ h, (lifecycleStep o b seq ths L).orders h
      = ((((process o b).1.taker :: (process o b).1.makers).map
          (Order.toFillUpdate seq)).foldl applyFillUpdate L).orders h := by
    intro h
    show (ths.foldl applyTradeCreate
        ((((process o b).1.taker :: (process o b).1.makers).map
          (Order.toFillUpdate seq)).foldl applyFillUpdate L)).orders h = _
    rw [foldl_applyTradeCreate_orders]
  have hcases : ∀ h,
      (((((process o b).1.taker :: (process o b).1.makers).map
          (Order.toFillUpdate seq)).foldl applyFillUpdate L).orders h = L.orders h) ∨
      ∃ z ∈ (process o b).1.taker :: (process o b).1.makers, z.hash = h ∧
        ((((process o b).1.taker :: (process o b).1.makers).map
          (Order.toFillUpdate seq)).foldl applyFillUpdate L).orders h
            = some ⟨z.remaining, z.original, z.status, seq⟩ := by
    intro h
    rcases foldl_applyFillUpdate_cases
        (((process o b).1.taker :: (process o b).1.makers).map (Order.toFillUpdate seq)) L h
      with h1 | ⟨u, hu, huh, h1⟩
    · exact Or.inl h1
    · right
      rw [List.mem_map] at hu
      obtain ⟨z, hz, hzu⟩ := hu
      subst hzu
      exact ⟨z, hz, huh, h1⟩
  have hFreshBook : o.hash ∉ b.allOrders.map Order.hash := by
    intro hmem
    rw [List.mem_map] at hmem
    obtain ⟨q, hq, hqh⟩ := hmem
    obtain ⟨rec, hrec, _⟩ := hCorr q hq
    rw [hqh, hFresh] at hrec
    cases hrec
  have hmkSrc : ∀ m ∈ (process o b).1.makers, ∃ r ∈ b.allOrders, m.hash = r.hash ∧
      m.original = r.original ∧ m.remaining ≤ r.remaining := fun m hm => (hmk m hm).2
  have hmkB : ∀ m ∈ (process o b).1.makers,
      0 ≤ m.remaining ∧ m.remaining ≤ m.original := fun m hm => (hmk m hm).1
  have hoppinv : ∀ r ∈ oppositeOf b o.side, 0 < r.remaining ∧ r.remaining ≤ r.original :=
    fun r hr => hbInv r (mem_oppositeOf hr)
  have hms := matchLoop_shrink (oppositeOf b o.side) o ho.1 hoppinv
  refine ⟨?_, ?_, ?_, ?_⟩
  · intro h rec hrec
    rw [horders h] at hrec
    rcases hcases h with h1 | ⟨z, hz, hzh, h1⟩
    · rw [h1] at hrec
      exact hLB h rec hrec
    · rw [h1] at hrec
      injection hrec with hrec'
      subst hrec'
      rcases List.mem_cons.mp hz with h2 | h2
      · subst h2
        exact htk
      · exact hmkB z h2
  · intro q hq
    rcases mem_process_book o b hq with hqt | hqo | hqs
    · subst hqt
      rcases hcases (process o b).1.taker.hash with h1 | ⟨z, hz, hzh, h1⟩
      · exfalso
        have hu0 : Order.toFillUpdate seq (process o b).1.taker ∈
            (((process o b).1.taker :: (process o b).1.makers).map (Order.toFillUpdate seq)) :=
          List.mem_map_of_mem _ (List.mem_cons_self _ _)
        obtain ⟨rec, hrec, _⟩ := coveredU_all L
          (((process o b).1.taker :: (process o b).1.makers).map (Order.toFillUpdate seq)) _ hu0
        have hrec2 : ((((process o b).1.taker :: (process o b).1.makers).map
            (Order.toFillUpdate seq)).foldl applyFillUpdate L).orders
            (process o b).1.taker.hash = some rec := hrec
        rw [h1] at hrec2
        rw [htkf.1, hFresh] at hrec2
        cases hrec2
      · rcases List.mem_cons.mp hz with h2 | h2
        · refine ⟨⟨z.remaining, z.original, z.status, seq⟩, ?_, ?_, ?_⟩
          · rw [horders (process o b).1.taker.hash]
            exact h1
          · rw [h2]
          · rw [h2]
        · exfalso
          obtain ⟨r, hr, hrh, _⟩ := hmkSrc z h2
          apply hFreshBook
          rw [← htkf.1, ← hzh, hrh]
          exact List.mem_map_of_mem Order.hash hr
    · obtain ⟨_, r, hr, hqh, hqo2, hqr⟩ := hms.2.1 q hqo
      obtain ⟨rec0, hrec0, h0r, h0o⟩ := hCorr r (mem_oppositeOf hr)
      rcases hcases q.hash with h1 | ⟨z, hz, hzh, h1⟩
      · refine ⟨rec0, ?_, le_trans hqr h0r, by rw [hqo2, h0o]⟩
        rw [horders q.hash, h1, hqh]
        exact hrec0
      · rcases List.mem_cons.mp hz with h2 | h2
        · exfalso
          subst h2
          apply hFreshBook
          rw [← htkf.1, hzh, hqh]
          exact List.mem_map_of_mem Order.hash (mem_oppositeOf hr)
        · have hoppnd : ((oppositeOf b o.side).map Order.hash).Nodup :=
            opposite_hashes_nodup hbN
          have hmm : z ∈ (matchLoop o (oppositeOf b o.side)).2.2.2 := by
            rw [← process_makers_eq]
            exact h2
          have hqz : q = z :=
            matchLoop_consistent (oppositeOf b o.side) o hoppnd q hqo z hmm hzh.symm
          refine ⟨⟨z.remaining, z.original, z.status, seq⟩, ?_, ?_, ?_⟩
          · rw [horders q.hash]
            exact h1
          · rw [hqz]
          · rw [hqz]
    · have hqa : q ∈ b.allOrders := mem_sameOf hqs
      obtain ⟨rec0, hrec0, h0r, h0o⟩ := hCorr q hqa
      rcases hcases q.hash with h1 | ⟨z, hz, hzh, h1⟩
      · refine ⟨rec0, ?_, h0r, h0o⟩
        rw [horders q.hash, h1]
        exact hrec0
      · rcases List.mem_cons.mp hz with h2 | h2
        · exfalso
          subst h2
          apply hFreshBook
          rw [← htkf.1, hzh]
          exact List.mem_map_of_mem Order.hash hqa
        · exfalso
          have hmm : z ∈ (matchLoop o (oppositeOf b o.side)).2.2.2 := by
            rw [← process_makers_eq]
            exact h2
          obtain ⟨_, r, hr, hrh, _⟩ := hms.2.2 z hmm
          refine side_hash_disjoint hbN q.hash
            (List.mem_map_of_mem Order.hash hqs) ?_
          rw [← hzh, hrh]
          exact List.mem_map_of_mem Order.hash hr
  · intro h hnone hne hnb
    rw [horders h]
    rcases hcases h with h1 | ⟨z, hz, hzh, h1⟩
    · rw [h1, hnone]
    · exfalso
      rcases List.mem_cons.mp hz with h2 | h2
      · subst h2
        apply hne
        rw [← hzh, htkf.1]
      · apply hnb
        obtain ⟨r, hr, hrh, _⟩ := hmkSrc z h2
        rw [← hzh, hrh]
        exact List.mem_map_of_mem Order.hash hr
  · intro h rec rec' hrec hrec'
    rw [horders h] at hrec'
    rcases hcases h with h1 | ⟨z, hz, hzh, h1⟩
    · rw [h1, hrec] at hrec'
      injection hrec' with he
      rw [he]
    · rw [h1] at hrec'
      injection hrec' with he
      subst he
      rcases List.mem_cons.mp hz with h2 | h2
      · exfalso
        subst h2
        rw [← hzh, htkf.1, hFresh] at hrec
        cases hrec
      · obtain ⟨r, hr, hrh, _, hrr⟩ := hmkSrc z h2
        obtain ⟨rec0, hrec0, h0r, _⟩ := hCorr r hr
        have hsame : L.orders h = some rec0 := by
          rw [← hzh, hrh]
          exact hrec0
        rw [hrec] at hsame
        injection hsame with he0
        show z.remaining ≤ rec.remaining
        calc z.remaining ≤ r.remaining := hrr
          _ ≤ rec0.remaining := h0r
          _ = rec.remaining := by rw [← he0]

theorem pipelineStates_head (th : Nat → List Nat) (os : List Order) (b : Book)
    (seq : Nat) (L : LifecycleState) :
    (pipelineStates th os b seq L).head? = some L := by
  cases os <;> rfl

theorem pipeline_inv (os : List Order) :
    ∀ (th : Nat → List Nat) (b : Book) (seq : Nat) (L : LifecycleState),
    (∀ o ∈ os, 0 ≤ o.remaining ∧ o.remaining ≤ o.original) →
    (os.map Order.hash).Nodup →
    BookInv b → (b.allOrders.map Order.hash).Nodup →
    (∀ h rec, L.orders h = some rec → 0 ≤ rec.remaining ∧ rec.remaining ≤ rec.original) →
    (∀ q ∈ b.allOrders, ∃ rec, L.orders q.hash = some rec ∧
        q.remaining ≤ rec.remaining ∧ q.original = rec.original) →
    (∀ o ∈ os, L.orders o.hash = none) →
    (∀ L' ∈ pipelineStates th os b seq L, ∀ h rec, L'.orders h = some rec →
        0 ≤ rec.remaining ∧ rec.remaining ≤ rec.original) ∧
    List.Chain' NoIncrease (pipelineStates th os b seq L) := by
  induction os with
  | nil =>
    intro th b seq L _ _ _ _ hLB _ _
    constructor
    · intro L' hL'
      simp only [pipelineStates, List.mem_singleton] at hL'
      subst hL'
      exact hLB
    · exact List.chain'_singleton L
  | cons o os ih =>
    intro th b seq L hos hnd hbInv hbN hLB hCorr hNone
    have hogood := hos o (List.mem_cons_self o os)
    have hstep := pipeline_step o b L seq (th seq) hbInv hbN hogood hLB hCorr
      (hNone o (List.mem_cons_self o os))
    have hFreshBook : o.hash ∉ b.allOrders.map Order.hash := by
      intro hmem
      rw [List.mem_map] at hmem
      obtain ⟨q, hq, hqh⟩ := hmem
      obtain ⟨rec, hrec, _⟩ := hCorr q hq
      rw [hqh, hNone o (List.mem_cons_self o os)] at hrec
      cases hrec
    have hnd' : (o.hash :: os.map Order.hash).Nodup := by simpa using hnd
    have hndos : (os.map Order.hash).Nodup := (List.nodup_cons.mp hnd').2
    have hhead : o.hash ∉ os.map Order.hash := (List.nodup_cons.mp hnd').1
    have hFuture : ∀ o' ∈ os, (lifecycleStep o b seq (th seq) L).orders o'.hash = none := by
      intro o' ho'
      refine hstep.2.2.1 o'.hash (hNone o' (List.mem_cons_of_mem o ho')) ?_ ?_
      · intro he
        exact hhead (List.mem_map.mpr ⟨o', ho', he⟩)
      · intro hb'
        rw [List.mem_map] at hb'
        obtain ⟨q, hq, hqh⟩ := hb'
        obtain ⟨rec, hrec, _⟩ := hCorr q hq
        rw [hqh, hNone o' (List.mem_cons_of_mem o ho')] at hrec
        cases hrec
    have hrest := ih th (process o b).2 (seq + 1) (lifecycleStep o b seq (th seq) L)
      (fun z hz => hos z (List.mem_cons_of_mem o hz)) hndos
      (process_shrink o b hogood hbInv).1
      (process_book_nodup o b hbN hFreshBook)
      hstep.1 hstep.2.1 hFuture
    constructor
    · intro L' hL'
      simp only [pipelineStates, List.mem_cons] at hL'
      rcases hL' with hL' | hL'
      · subst hL'
        exact hLB
      · exact hrest.1 L' hL'
    · show List.Chain' NoIncrease
        (L :: pipelineStates th os (process o b).2 (seq + 1) (lifecycleStep o b seq (th seq) L))
      refine List.chain'_cons'.mpr ⟨?_, hrest.2⟩
      intro y hy
      rw [pipelineStates_head] at hy
      injection hy with hy'
      rw [← hy']
      exact hstep.2.2.2

theorem pipeline_safe (th : Nat → List Nat) (os : List Order)
    (hos : ∀ o ∈ os, 0 ≤ o.remaining ∧ o.remaining ≤ o.original)
    (hnd : (os.map Order.hash).Nodup) :
    (∀ L ∈ pipelineStates th os Book.empty 1 LifecycleState.empty,
      ∀ h rec, L.orders h = some rec → 0 ≤ rec.remaining ∧ rec.remaining ≤ rec.original) ∧
    List.Chain' NoIncrease (pipelineStates th os Book.empty 1 LifecycleState.empty) := by
  refine pipeline_inv os th Book.empty 1 LifecycleState.empty hos hnd ?_ ?_ ?_ ?_ ?_
  · intro r hr
    simp [Book.empty, Book.allOrders] at hr
  · simp [Book.empty, Book.allOrders]
  · intro h rec hrec
    exact absurd hrec (by simp [LifecycleState.empty])
  · intro q hq
    simp [Book.empty, Book.allOrders] at hq
  · intro o _
    rfl

/-- C2: quantity invariants and monotonicity of `remaining` across all engine
and lifecycle operations.  Along any engine run from the empty book on
well-formed inputs, every book the engine sees satisfies `BookInv` (resting
orders have `0 < remaining ≤ original`), every response's taker and makers
satisfy `0 ≤ remaining ≤ original`, and every maker's remaining has only
shrunk from the book order it came from while the taker's has only shrunk from
the submitted order.  A single `process` step never increases any order's
remaining (each post-book order shrinks from a pre-book order or from the
incoming order), and cancellation only removes book orders — it never alters a
remaining quantity.  Finally, running the Lifecycle Manager in lockstep with
the engine (`pipelineStates`) on distinctly-hashed inputs, every persisted
order record satisfies `0 ≤ remaining ≤ original` at every point of the run,
and no application ever increases a stored remaining quantity
(`List.Chain' NoIncrease` over the state trace): a filled quantity is never
un-filled. -/
theorem remaining_bounded_and_monotone :
    (∀ (os : List Order),
      (∀ o ∈ os, 0 ≤ o.remaining ∧ o.remaining ≤ o.original) →
      ∀ pre resp, (pre, resp) ∈ (runEngine os Book.empty).1 →
        BookInv pre ∧
        (0 ≤ resp.taker.remaining ∧ resp.taker.remaining ≤ resp.taker.original) ∧
        (∃ o ∈ os, resp.taker.hash = o.hash ∧ resp.taker.original = o.original ∧
          resp.taker.remaining ≤ o.remaining) ∧
        (∀ m ∈ resp.makers, (0 ≤ m.remaining ∧ m.remaining ≤ m.original) ∧
          ∃ r ∈ pre.allOrders, m.hash = r.hash ∧ m.original = r.original ∧
            m.remaining ≤ r.remaining)) ∧
    (∀ (o : Order) (b : Book),
      (0 ≤ o.remaining ∧ o.remaining ≤ o.original) → BookInv b →
      BookInv (process o b).2 ∧
      (∀ r' ∈ ((process o b).2).allOrders,
        (∃ r ∈ b.allOrders, r'.hash = r.hash ∧ r'.original = r.original ∧
          r'.remaining ≤ r.remaining) ∨
        (r'.hash = o.hash ∧ r'.original = o.original ∧ r'.remaining ≤ o.remaining))) ∧
    (∀ (s : EngineState) (h : Nat),
      ∀ r ∈ (cancelOrder s h).1.book.allOrders, r ∈ s.book.allOrders) ∧
    (∀ (th : Nat → List Nat) (os : List Order),
      (∀ o ∈ os, 0 ≤ o.remaining ∧ o.remaining ≤ o.original) →
      (os.map Order.hash).Nodup →
      (∀ L ∈ pipelineStates th os Book.empty 1 LifecycleState.empty,
        ∀ h rec, L.orders h = some rec →
          0 ≤ rec.remaining ∧ rec.remaining ≤ rec.original) ∧
      List.Chain' NoIncrease (pipelineStates th os Book.empty 1 LifecycleState.empty)) := by
  refine ⟨?_, ?_, cancelOrder_book_subset, pipeline_safe⟩
  · intro os hos
    refine runEngine_inv os Book.empty hos ?_
    intro r hr
    simp [Book.empty, Book.allOrders] at hr
  · intro o b ho hb
    exact ⟨(process_shrink o b ho hb).1, (process_shrink o b ho hb).2.2.2.2⟩

/-- C2 witness: the two-order scenario evaluated concretely — the partially
filled maker has remaining 6 of original 10, shrunk from 10, the book the
second step saw satisfies the invariant, and the lockstep lifecycle run on the
same two orders keeps every stored record bounded with no remaining ever
increased. -/
theorem remaining_bounded_and_monotone_witness :
    (BookInv pre1W ∧
      (0 ≤ resp1W.taker.remaining ∧ resp1W.taker.remaining ≤ resp1W.taker.original) ∧
      (∃ o ∈ osW, resp1W.taker.hash = o.hash ∧ resp1W.taker.original = o.original ∧
        resp1W.taker.remaining ≤ o.remaining) ∧
      (∀ m ∈ resp1W.makers, (0 ≤ m.remaining ∧ m.remaining ≤ m.original) ∧
        ∃ r ∈ pre1W.allOrders, m.hash = r.hash ∧ m.original = r.original ∧
          m.remaining ≤ r.remaining)) ∧
    (∀ L ∈ pipelineStates thW osW Book.empty 1 LifecycleState.empty,
      ∀ h rec, L.orders h = some rec →
        0 ≤ rec.remaining ∧ rec.remaining ≤ rec.original) ∧
    List.Chain' NoIncrease (pipelineStates thW osW Book.empty 1 LifecycleState.empty) :=
  ⟨remaining_bounded_and_monotone.1 osW (by decide) pre1W resp1W (by decide),
   (remaining_bounded_and_monotone.2.2.2 thW osW (by decide) (by decide)).1,
   (remaining_bounded_and_monotone.2.2.2 thW osW (by decide) (by decide)).2⟩

end TomoxSdk
